import Mathlib

/-!
# Whiteboard image codec (`whiteboard/main.go`)

A shallow embedding of the export / load pipeline of the whiteboard:
content bounding box, bit-plane packing, container layout, optional
sealing, transport encoding, and the loader that parses a container and
paints it back into the pixel buffer.

Conventions.
* Bytes are natural numbers below 256; byte slices are `List Nat`.
* Go `int` values that can be the result of a subtraction are `Int`;
  loop counters and slice indices are `Nat`.
* `compress/flate`, `crypto/*` are libraries outside the repository: they
  enter as the records `Flate` and `CryptoLib`.
* A Go run-time panic (index out of range) is an explicit outcome.
-/

namespace Whiteboard

/-! ## Library interfaces -/

/-- The two entry points of `compress/flate` the program uses:
`deflate` is `flate.NewWriter(_, 9)` + `Write` + `Close`,
`inflate` is `flate.NewReader` drained by `io.Copy` (`none` on error). -/
structure Flate where
  deflate : List Nat → List Nat
  inflate : List Nat → Option (List Nat)

/-- The pieces of `crypto/sha256`, `crypto/aes` and `crypto/cipher` the
program uses.  `sum256` returns a `[32]byte`; `gcmSeal key nonce m` is
`gcm.Seal(nil, nonce, m, nil)` and `gcmOpen key nonce ct` is
`gcm.Open(nil, nonce, ct, nil)` for the AEAD built from `key`. -/
structure CryptoLib where
  sum256 : List Nat → { k : List Nat // k.length = 32 }
  nonceSize : Nat
  gcmSeal : List Nat → List Nat → List Nat → List Nat
  gcmOpen : List Nat → List Nat → List Nat → Option (List Nat)

/-! ## Small helpers of the program -/

/-- Source `max` (main.go:844). -/
def max (a b : Int) : Int := if a > b then a else b

/-- Source `min` (main.go:851). -/
def min (a b : Int) : Int := if a < b then a else b

/-- The drawing state the codec touches: `canvasWidth`, `canvasHeight`
and `imgData.Pix`; `imgData.Stride` is `4 * canvasWidth`. -/
structure Canvas where
  canvasWidth : Nat
  canvasHeight : Nat
  pix : List Nat

/-- Row stride of `imgData` as `image.NewRGBA` sets it. -/
def Canvas.stride (c : Canvas) : Nat := 4 * c.canvasWidth

/-- The shape `image.NewRGBA(image.Rect(0, 0, w, h))` gives the buffer. -/
def Canvas.WF (c : Canvas) : Prop :=
  c.pix.length = 4 * c.canvasWidth * c.canvasHeight

/-- Two nested counting loops `for y < h { for x < w { body } }`. -/
def loop2 {σ : Type} (h w : Nat) (body : Nat → Nat → σ → σ) (s : σ) : σ :=
  (List.range h).foldl (fun s y => (List.range w).foldl (fun s x => body y x s) s) s

/-- Conversion `uint16(v)` of a Go `int`. -/
def uint16 (v : Int) : Nat := (v % 65536).toNat

/-- Conversion `uint32(n)` of a slice length. -/
def uint32 (n : Nat) : Nat := n % 4294967296

/-- Bytes `binary.Write(_, binary.LittleEndian, v)` emits for a `uint16`. -/
def putU16 (v : Nat) : List Nat := [v % 256, v / 256 % 256]

/-- Bytes `binary.Write(_, binary.LittleEndian, v)` emits for a `uint32`. -/
def putU32 (v : Nat) : List Nat :=
  [v % 256, v / 256 % 256, v / 65536 % 256, v / 16777216 % 256]

/-- Bytes of a Go string: the UTF-8 encoding of its characters. -/
def strBytes (s : String) : List Nat :=
  s.data.flatMap (fun ch => (String.utf8EncodeChar ch).map UInt8.toNat)

/-! ## Transport encoding: `base64.RawURLEncoding.EncodeToString` -/

/-- The URL-safe alphabet. -/
def encodeURL : List Char :=
  "ABCDEFGHIJKLMNOPQRSTUVWXYZabcdefghijklmnopqrstuvwxyz0123456789-_".toList

/-- Alphabet lookup `enc.encode[v & 0x3F]`. -/
def b64Char (v : Nat) : Char := encodeURL.getD (v % 64) 'A'

/-- Characters of the unpadded encoding, three source bytes at a time. -/
def encodeChars : List Nat → List Char
  | a :: b :: c :: rest =>
      let v := a * 65536 + b * 256 + c
      b64Char (v / 262144) :: b64Char (v / 4096) :: b64Char (v / 64) :: b64Char v ::
        encodeChars rest
  | [a, b] =>
      let v := a * 65536 + b * 256
      [b64Char (v / 262144), b64Char (v / 4096), b64Char (v / 64)]
  | [a] =>
      let v := a * 65536
      [b64Char (v / 262144), b64Char (v / 4096)]
  | [] => []

/-- Function `base64.RawURLEncoding.EncodeToString`. -/
def encodeToString (data : List Nat) : String := String.mk (encodeChars data)

/-! ## Cipher layer -/

/-- Function `aes.NewCipher`: fails on a key that is not 16, 24 or 32 bytes. -/
def newCipher (key : List Nat) : Except String Unit :=
  if key.length = 16 ∨ key.length = 24 ∨ key.length = 32 then .ok ()
  else .error "crypto/aes: invalid key size"

/-- Source `encrypt` (main.go:495).  `rnd` is the outcome of `rand.Read` on
the `nonceSize`-byte slice: `none` on error, otherwise the byte source that
fills the slice position by position. -/
def encrypt (cr : CryptoLib) (rnd : Option (Nat → Nat)) (data : List Nat)
    (password : String) : Except String (List Nat) :=
  let key := (cr.sum256 (strBytes password)).val
  match newCipher key with
  | .error e => .error e
  | .ok _ =>
    match rnd with
    | none => .error "rand.Read"
    | some src =>
      let nonce := (List.range cr.nonceSize).map src
      -- gcm.Seal(nonce, nonce, data, nil) appends to its first argument
      .ok (nonce ++ cr.gcmSeal key nonce data)

/-- Source `decrypt` (main.go:522). -/
def decrypt (cr : CryptoLib) (data : List Nat) (password : String) :
    Except String (List Nat) :=
  let key := (cr.sum256 (strBytes password)).val
  match newCipher key with
  | .error e => .error e
  | .ok _ =>
    let nonceSize := cr.nonceSize
    if data.length < nonceSize then .error "invalid ciphertext"
    else
      let nonce := data.take nonceSize
      let ciphertext := data.drop nonceSize
      match cr.gcmOpen key nonce ciphertext with
      | none => .error "cipher: message authentication failed"
      | some plaintext => .ok plaintext

/-! ## Export -/

/-- Source `compressPlane` (main.go:475). -/
def compressPlane (fl : Flate) (data : List Nat) : List Nat := fl.deflate data

/-- Source `decompressPlane` (main.go:484). -/
def decompressPlane (fl : Flate) (data : List Nat) : Option (List Nat) := fl.inflate data

/-- Running state of the bounding-box scan of `exportImage`. -/
structure Scan where
  minX : Int
  minY : Int
  maxX : Int
  maxY : Int
  hasContent : Bool

/-- The test `Pix[idx] != 255 || Pix[idx+1] != 255 || Pix[idx+2] != 255`
at `idx = y*Stride + x*4`. -/
def nonWhite (c : Canvas) (x y : Nat) : Bool :=
  let idx := y * c.stride + x * 4
  c.pix.getD idx 0 != 255 || c.pix.getD (idx + 1) 0 != 255 || c.pix.getD (idx + 2) 0 != 255

/-- Body of the scan loop (main.go:368-383). -/
def scanPixel (c : Canvas) (y x : Nat) (s : Scan) : Scan :=
  if nonWhite c x y then
    { hasContent := true
      minX := if (x : Int) < s.minX then x else s.minX
      maxX := if (x : Int) > s.maxX then x else s.maxX
      minY := if (y : Int) < s.minY then y else s.minY
      maxY := if (y : Int) > s.maxY then y else s.maxY }
  else s

/-- The scan loop (main.go:362-385). -/
def scan (c : Canvas) : Scan :=
  loop2 c.canvasHeight c.canvasWidth (scanPixel c)
    { minX := c.canvasWidth, minY := c.canvasHeight, maxX := 0, maxY := 0, hasContent := false }

/-- Running state of the packing loop. -/
structure Planes where
  rPlane : List Nat
  gPlane : List Nat
  bPlane : List Nat
  bitIdx : Nat

/-- Statement `plane[byteIdx] |= (1 << bitPos)`. -/
def orBit (plane : List Nat) (byteIdx bitPos : Nat) : List Nat :=
  plane.set byteIdx (plane.getD byteIdx 0 ||| (1 <<< bitPos))

/-- Body of the packing loop (main.go:411-430). -/
def packPixel (c : Canvas) (minX minY : Nat) (y x : Nat) (p : Planes) : Planes :=
  let srcIdx := (minY + y) * c.stride + (minX + x) * 4
  let r := c.pix.getD srcIdx 0
  let g := c.pix.getD (srcIdx + 1) 0
  let b := c.pix.getD (srcIdx + 2) 0
  let byteIdx := p.bitIdx / 8
  let bitPos := 7 - p.bitIdx % 8
  { rPlane := if r > 128 then orBit p.rPlane byteIdx bitPos else p.rPlane
    gPlane := if g > 128 then orBit p.gPlane byteIdx bitPos else p.gPlane
    bPlane := if b > 128 then orBit p.bPlane byteIdx bitPos else p.bPlane
    bitIdx := p.bitIdx + 1 }

/-- The cropped rectangle `exportImage` encodes. -/
structure Bounds where
  minX : Int
  minY : Int
  width : Int
  height : Int

/-- Lines 387-398 of `exportImage`: `none` is the early `return ""`. -/
def contentBounds (c : Canvas) : Option Bounds :=
  let s := scan c
  if !s.hasContent then none
  else
    let minX := max 0 (s.minX - 2)
    let minY := max 0 (s.minY - 2)
    let maxX := min ((c.canvasWidth : Int) - 1) (s.maxX + 2)
    let maxY := min ((c.canvasHeight : Int) - 1) (s.maxY + 2)
    some { minX := minX, minY := minY, width := maxX - minX + 1, height := maxY - minY + 1 }

/-- Lines 400-432 of `exportImage`: the three bit planes of a rectangle. -/
def packPlanes (c : Canvas) (b : Bounds) : Planes :=
  let numPixels := b.width * b.height
  let numBytes := (numPixels + 7) / 8
  let zero := List.replicate numBytes.toNat 0
  loop2 b.height.toNat b.width.toNat (packPixel c b.minX.toNat b.minY.toNat)
    { rPlane := zero, gPlane := zero, bPlane := zero, bitIdx := 0 }

/-- Lines 434-458 of `exportImage`: header and three length-prefixed
compressed planes. -/
def container (fl : Flate) (b : Bounds) (p : Planes) : List Nat :=
  let compressedR := compressPlane fl p.rPlane
  let compressedG := compressPlane fl p.gPlane
  let compressedB := compressPlane fl p.bPlane
  putU16 (uint16 b.minX) ++ putU16 (uint16 b.minY) ++
    putU16 (uint16 b.width) ++ putU16 (uint16 b.height) ++
    putU32 (uint32 compressedR.length) ++ compressedR ++
    putU32 (uint32 compressedG.length) ++ compressedG ++
    putU32 (uint32 compressedB.length) ++ compressedB

/-- The marker `[]byte("ENC:")`. -/
def marker : List Nat := [69, 78, 67, 58]

/-- The byte string `data` that `exportImage` hands to the base64 encoder
(main.go:355-469); `none` when the function returns `""` before encoding. -/
def exportData (fl : Flate) (cr : CryptoLib) (rnd : Option (Nat → Nat)) (c : Canvas)
    (password : String) : Option (List Nat) :=
  match contentBounds c with
  | none => none
  | some b =>
    let data := container fl b (packPlanes c b)
    if password ≠ "" then
      match encrypt cr rnd data password with
      | .error _ => none
      | .ok encrypted => some (marker ++ encrypted)
    else some data

/-- Source `exportImage` (main.go:355): the string returned to JavaScript. -/
def exportImage (fl : Flate) (cr : CryptoLib) (rnd : Option (Nat → Nat)) (c : Canvas)
    (password : String) : String :=
  match exportData fl cr rnd c password with
  | none => ""
  | some data => encodeToString data

/-- The sealed-payload test of `loadFromURL` and `tryLoadWithPassword`:
`len(decoded) >= 4 && string(decoded[:4]) == "ENC:"`. -/
def isSealed (decoded : List Nat) : Bool :=
  decide (decoded.length ≥ 4) && decide (decoded.take 4 = marker)

/-! ## Load -/

/-- Outcome of `loadImageData`: a run-time panic, or a return value with
the pixel buffer as the call leaves it. -/
inductive LoadResult where
  | aborted
  | returned (ok : Bool) (pix : List Nat)
  deriving DecidableEq, Repr

/-- Function `binary.Read(buf, binary.LittleEndian, &v)` for a `uint16`:
the value and the rest of the reader, `none` on a short read. -/
def readU16 (buf : List Nat) : Option (Nat × List Nat) :=
  match buf with
  | b0 :: b1 :: rest => some (b0 + 256 * b1, rest)
  | _ => none

/-- Function `binary.Read(buf, binary.LittleEndian, &v)` for a `uint32`. -/
def readU32 (buf : List Nat) : Option (Nat × List Nat) :=
  match buf with
  | b0 :: b1 :: b2 :: b3 :: rest =>
      some (b0 + 256 * b1 + 65536 * b2 + 16777216 * b3, rest)
  | _ => none

/-- The pair `seg := make([]byte, n); buf.Read(seg)`.  `bytes.Reader.Read`
reports `io.EOF` only when the reader is already at its end; otherwise it
copies what is there, leaving the tail of `seg` zero, with no error. -/
def readSeg (n : Nat) (buf : List Nat) : Option (List Nat × List Nat) :=
  if buf = [] then none
  else
    let got := buf.take n
    some (got ++ List.replicate (n - got.length) 0, buf.drop n)

/-- Running state of the reconstruction loop. -/
structure Recon where
  pix : List Nat
  bitIdx : Nat

/-- The channel value read from a plane: `plane[byteIdx] & (1 << bitPos)`
mapped to 0 or 255; `none` when `byteIdx` is out of range (panic). -/
def chanVal (plane : List Nat) (byteIdx bitPos : Nat) : Option Nat :=
  match plane.get? byteIdx with
  | none => none
  | some v => some (if v &&& (1 <<< bitPos) ≠ 0 then 255 else 0)

/-- Body of the reconstruction loop (main.go:711-741); `none` is a panic. -/
def reconPixel (c : Canvas) (offsetX offsetY : Nat) (rPlane gPlane bPlane : List Nat)
    (y x : Nat) (s : Option Recon) : Option Recon :=
  match s with
  | none => none
  | some s =>
    let byteIdx := s.bitIdx / 8
    let bitPos := 7 - s.bitIdx % 8
    match chanVal rPlane byteIdx bitPos, chanVal gPlane byteIdx bitPos,
        chanVal bPlane byteIdx bitPos with
    | some r, some g, some b =>
      let destX := offsetX + x
      let destY := offsetY + y
      if destX < c.canvasWidth ∧ destY < c.canvasHeight then
        let idx := destY * c.stride + destX * 4
        if idx + 3 < s.pix.length then
          some { pix := (((s.pix.set idx r).set (idx + 1) g).set (idx + 2) b).set (idx + 3) 255
                 bitIdx := s.bitIdx + 1 }
        else none
      else some { pix := s.pix, bitIdx := s.bitIdx + 1 }
    | _, _, _ => none

/-- Source `loadImageData` (main.go:640). -/
def loadImageData (fl : Flate) (c : Canvas) (data : List Nat) : LoadResult :=
  let fail := LoadResult.returned false c.pix
  match readU16 data with
  | none => fail
  | some (offsetX, buf) =>
  match readU16 buf with
  | none => fail
  | some (offsetY, buf) =>
  match readU16 buf with
  | none => fail
  | some (width, buf) =>
  match readU16 buf with
  | none => fail
  | some (height, buf) =>
  match readU32 buf with
  | none => fail
  | some (rLen, buf) =>
  match readSeg rLen buf with
  | none => fail
  | some (rCompressed, buf) =>
  match decompressPlane fl rCompressed with
  | none => fail
  | some rPlane =>
  match readU32 buf with
  | none => fail
  | some (gLen, buf) =>
  match readSeg gLen buf with
  | none => fail
  | some (gCompressed, buf) =>
  match decompressPlane fl gCompressed with
  | none => fail
  | some gPlane =>
  match readU32 buf with
  | none => fail
  | some (bLen, buf) =>
  match readSeg bLen buf with
  | none => fail
  | some (bCompressed, _) =>
  match decompressPlane fl bCompressed with
  | none => fail
  | some bPlane =>
    let cleared := c.pix.map (fun _ => 255)
    match loop2 height width (reconPixel c offsetX offsetY rPlane gPlane bPlane)
        (some { pix := cleared, bitIdx := 0 }) with
    | none => .aborted
    | some s => .returned true s.pix

/-! ## A concrete `Flate`: the stored-block fragment of DEFLATE (RFC 1951)

Used to run the program on concrete containers.  `inflateStored` reads a
stream made of stored blocks (`BTYPE = 00`) exactly as a DEFLATE reader
does, ignoring whatever follows the final block; it reports an error on
the compressed block types, which it does not implement. -/

/-- Reader for a sequence of stored blocks; `fuel` bounds the block count. -/
def inflateBlocks : Nat → List Nat → List Nat → Option (List Nat)
  | 0, _, _ => none
  | fuel + 1, data, acc =>
    match data with
    | hd :: l0 :: l1 :: n0 :: n1 :: rest =>
      if hd / 2 % 4 ≠ 0 then none
      else
        let len := l0 + 256 * l1
        let nlen := n0 + 256 * n1
        if nlen ≠ 65535 - len then none
        else if rest.length < len then none
        else if hd % 2 = 1 then some (acc ++ rest.take len)
        else inflateBlocks fuel (rest.drop len) (acc ++ rest.take len)
    | _ => none

/-- Stored-block reader on a whole stream. -/
def inflateStored (data : List Nat) : Option (List Nat) :=
  inflateBlocks (data.length + 1) data []

/-- Stored-block writer: blocks of at most 65535 bytes, the last one final. -/
def deflateBlocks : Nat → List Nat → List Nat
  | 0, _ => [1, 0, 0, 255, 255]
  | fuel + 1, data =>
    if data.length ≤ 65535 then
      [1] ++ putU16 data.length ++ putU16 (65535 - data.length) ++ data
    else
      [0, 255, 255, 0, 0] ++ data.take 65535 ++ deflateBlocks fuel (data.drop 65535)

/-- Stored-block writer on a whole plane. -/
def deflateStored (data : List Nat) : List Nat :=
  deflateBlocks (data.length + 1) data

/-- The stored-block codec as a `Flate`. -/
def storedFlate : Flate := { deflate := deflateStored, inflate := inflateStored }

/-! ## Specification-side vocabulary -/

/-- Channel `k` (0 = R, 1 = G, 2 = B, 3 = A) of pixel `(x, y)`. -/
def Canvas.chan (c : Canvas) (x y k : Nat) : Nat :=
  c.pix.getD (y * c.stride + x * 4 + k) 0

/-- Pixel `(x, y)` lies on the canvas and differs from white in R, G or B. -/
def Canvas.IsInk (c : Canvas) (x y : Nat) : Prop :=
  x < c.canvasWidth ∧ y < c.canvasHeight ∧
    ¬ (c.chan x y 0 = 255 ∧ c.chan x y 1 = 255 ∧ c.chan x y 2 = 255)

/-- Pixels visited before step `k` of a row-major walk over rows of width `w`. -/
def Seen (w k x y : Nat) : Prop := x < w ∧ y * w + x < k

/-- Loop invariant of the bounding-box scan after `k` pixels. -/
structure ScanInv (c : Canvas) (k : Nat) (s : Scan) : Prop where
  content : s.hasContent = true ↔
    ∃ x y, Seen c.canvasWidth k x y ∧ nonWhite c x y = true
  blank : s.hasContent = false →
    s.minX = c.canvasWidth ∧ s.minY = c.canvasHeight ∧ s.maxX = 0 ∧ s.maxY = 0
  bound : ∀ x y, Seen c.canvasWidth k x y → nonWhite c x y = true →
    s.minX ≤ x ∧ (x : Int) ≤ s.maxX ∧ s.minY ≤ y ∧ (y : Int) ≤ s.maxY
  hitMinX : s.hasContent = true →
    ∃ x y, Seen c.canvasWidth k x y ∧ nonWhite c x y = true ∧ s.minX = x
  hitMaxX : s.hasContent = true →
    ∃ x y, Seen c.canvasWidth k x y ∧ nonWhite c x y = true ∧ s.maxX = x
  hitMinY : s.hasContent = true →
    ∃ x y, Seen c.canvasWidth k x y ∧ nonWhite c x y = true ∧ s.minY = y
  hitMaxY : s.hasContent = true →
    ∃ x y, Seen c.canvasWidth k x y ∧ nonWhite c x y = true ∧ s.maxY = y

/-- Bit `i` of a plane in packing order: bit `7 - i mod 8` of byte `i div 8`. -/
def planeBit (plane : List Nat) (i : Nat) : Bool :=
  (plane.getD (i / 8) 0).testBit (7 - i % 8)

/-- Loop invariant of one plane of the packing loop after `k` pixels, for
a plane of `n` bytes fed with the channel values `val 0, val 1, ...`. -/
def PlaneInv (n k : Nat) (val : Nat → Nat) (plane : List Nat) : Prop :=
  plane.length = n ∧
    ∀ j t, j < n → (plane.getD j 0).testBit t =
      (decide (t < 8) && decide (8 * j + (7 - t) < k) && decide (val (8 * j + (7 - t)) > 128))

/-- Channel `ch` of the `i`-th pixel, in row-major order, of the rectangle
of width `w` whose top-left corner is `(minX, minY)`. -/
def regionChan (c : Canvas) (minX minY w ch i : Nat) : Nat :=
  c.chan (minX + i % w) (minY + i / w) ch

/-- Loop invariant of the packing loop after `k` pixels. -/
structure PackInv (c : Canvas) (minX minY w n k : Nat) (p : Planes) : Prop where
  idx : p.bitIdx = k
  r : PlaneInv n k (regionChan c minX minY w 0) p.rPlane
  g : PlaneInv n k (regionChan c minX minY w 1) p.gPlane
  b : PlaneInv n k (regionChan c minX minY w 2) p.bPlane

/-- Channel value the loader paints for a plane bit. -/
def bitVal (plane : List Nat) (i : Nat) : Nat := if planeBit plane i then 255 else 0

/-- Value the reconstruction loop has left, after `k` pixels, in channel
`ch` of canvas pixel `(X, Y)`: the painted value when the pixel is one of
the first `k` pixels of the rectangle at `(offX, offY)` of width `w`,
white otherwise. -/
def loadedChan (offX offY w : Nat) (rPlane gPlane bPlane : List Nat) (k X Y ch : Nat) : Nat :=
  if offX ≤ X ∧ X < offX + w ∧ offY ≤ Y ∧ (Y - offY) * w + (X - offX) < k then
    match ch with
    | 0 => bitVal rPlane ((Y - offY) * w + (X - offX))
    | 1 => bitVal gPlane ((Y - offY) * w + (X - offX))
    | 2 => bitVal bPlane ((Y - offY) * w + (X - offX))
    | _ => 255
  else 255

/-- Loop invariant of the reconstruction loop after `k` pixels. -/
def ReconInv (c : Canvas) (offX offY w : Nat) (rPlane gPlane bPlane : List Nat) (k : Nat)
    (s : Option Recon) : Prop :=
  ∃ r, s = some r ∧ r.bitIdx = k ∧ r.pix.length = c.pix.length ∧
    ∀ X Y ch, X < c.canvasWidth → Y < c.canvasHeight → ch < 4 →
      r.pix.getD (Y * c.stride + X * 4 + ch) 0 =
        loadedChan offX offY w rPlane gPlane bPlane k X Y ch

/-- The loader's rendering of a channel value the exporter has thresholded. -/
def binarized (v : Nat) : Nat := if v > 128 then 255 else 0

/-- Channel `ch` of pixel `(X, Y)` after a canvas `c` has been exported
with rectangle `b` and loaded back: thresholded and opaque inside the
rectangle, white outside. -/
def reloadedChan (c : Canvas) (b : Bounds) (X Y ch : Nat) : Nat :=
  if b.minX ≤ X ∧ (X : Int) < b.minX + b.width ∧ b.minY ≤ Y ∧ (Y : Int) < b.minY + b.height then
    if ch = 3 then 255 else binarized (c.chan X Y ch)
  else 255

/-! ## Concrete inputs -/

/-- A `CryptoLib` with a transparent AEAD (the plaintext followed by a
16-byte tag of zeros) and a constant key, to run the program on concrete
inputs; it stands for no property of AES-GCM beyond its interface. -/
def demoCrypto : CryptoLib :=
  { sum256 := fun _ => ⟨List.replicate 32 0, by simp⟩
    nonceSize := 12
    gcmSeal := fun _ _ m => m ++ List.replicate 16 0
    gcmOpen := fun _ _ ct =>
      if ct.length < 16 then none else some (ct.take (ct.length - 16)) }

/-- A canvas of the given size built from a per-byte function. -/
def canvasOf (w h : Nat) (f : Nat → Nat) : Canvas :=
  { canvasWidth := w, canvasHeight := h, pix := (List.range (4 * w * h)).map f }

/-- The 64x64 canvas painted opaque black. -/
def blackCanvas : Canvas := canvasOf 64 64 (fun i => if i % 4 = 3 then 255 else 0)

/-- The 64x64 opaque white canvas, as `main` creates it. -/
def whiteCanvas : Canvas := canvasOf 64 64 (fun _ => 255)

/-- The 64x64 white canvas with one faint mark: R = 200 at the top-left
pixel (byte 0 of the buffer). -/
def faintCanvas : Canvas := canvasOf 64 64 (fun i => if i = 0 then 200 else 255)

/-- A container for a 1x1 image whose three planes are empty stored
blocks (`01 00 00 ff ff`), each with its exact declared length 5. -/
def emptyPlanesContainer : List Nat :=
  [0, 0, 0, 0, 1, 0, 1, 0,
    5, 0, 0, 0, 1, 0, 0, 255, 255,
    5, 0, 0, 0, 1, 0, 0, 255, 255,
    5, 0, 0, 0, 1, 0, 0, 255, 255]

/-- A container for a 1x1 image whose B segment declares 9 bytes while
only 6 remain. -/
def shortSegmentContainer : List Nat :=
  [0, 0, 0, 0, 1, 0, 1, 0,
    6, 0, 0, 0, 1, 1, 0, 254, 255, 128,
    6, 0, 0, 0, 1, 1, 0, 254, 255, 0,
    9, 0, 0, 0, 1, 1, 0, 254, 255, 0]

/-- The plane of channel `ch` (0 = R, 1 = G, otherwise B). -/
def Planes.chanPlane (p : Planes) (ch : Nat) : List Nat :=
  match ch with
  | 0 => p.rPlane
  | 1 => p.gPlane
  | _ => p.bPlane

/-- The 4x4 canvas whose R channel is 200 at the top-left pixel and whose
other bytes are 0. -/
def markCanvas : Canvas := canvasOf 4 4 (fun i => if i = 0 then 200 else 0)

/-- The 4x4 canvas whose first pixel has R = 129, G = 128, B = 128. -/
def thresholdCanvas : Canvas := canvasOf 4 4 (fun i => if i = 0 then 129 else 128)

/-- Little-endian encoding of `v` on `n` bytes, as the container layout in
the specification words it (`LE16 = le 2`, `LE32 = le 4`). -/
def le : Nat → Nat → List Nat
  | 0, _ => []
  | n + 1, v => v % 256 :: le n (v / 256)

/-! ## Resize -/

/-- Outcome of `resizeCanvasJS`: a run-time panic, or a return value with
the canvas state as the call leaves it. -/
inductive ResizeResult where
  | aborted
  | returned (ok : Bool) (c : Canvas)

/-- Body of the copy loop of `resizeCanvasJS` (main.go:819-831) on the
new buffer `pix` of a `canvasWidth` x `canvasHeight` canvas; `none` is a
panic (index out of range). -/
def copyPixel (oldData : List Nat) (oldWidth canvasWidth canvasHeight : Nat)
    (offsetX offsetY : Int) (y x : Nat) (s : Option (List Nat)) : Option (List Nat) :=
  match s with
  | none => none
  | some pix =>
    let srcIdx := y * oldWidth * 4 + x * 4
    let destX := (x : Int) + offsetX
    let destY := (y : Int) + offsetY
    if destX ≥ 0 ∧ destX < canvasWidth ∧ destY ≥ 0 ∧ destY < canvasHeight then
      let dstIdx := (destY * ((4 * canvasWidth : Nat) : Int) + destX * 4).toNat
      if srcIdx + 3 < oldData.length then
        if dstIdx + 3 < pix.length then
          some ((((pix.set dstIdx (oldData.getD srcIdx 0)).set (dstIdx + 1)
            (oldData.getD (srcIdx + 1) 0)).set (dstIdx + 2)
            (oldData.getD (srcIdx + 2) 0)).set (dstIdx + 3) (oldData.getD (srcIdx + 3) 0))
        else none
      else some pix
    else some pix

/-- Source `resizeCanvasJS` (main.go:767); `args` are the integer values
of the JavaScript arguments. -/
def resizeCanvasJS (c : Canvas) (args : List Int) : ResizeResult :=
  match args with
  | newWidth :: newHeight :: _ =>
    if newWidth < 64 ∨ newWidth > 2048 ∨ newHeight < 64 ∨ newHeight > 2048 then
      .returned false c
    else
      let oldData := c.pix
      let oldWidth := c.canvasWidth
      let oldHeight := c.canvasHeight
      let canvasWidth := newWidth.toNat
      let canvasHeight := newHeight.toNat
      -- image.NewRGBA followed by the fill with 255
      let blank := List.replicate (4 * canvasWidth * canvasHeight) 255
      let offsetX := Int.tdiv ((canvasWidth : Int) - oldWidth) 2
      let offsetY := Int.tdiv ((canvasHeight : Int) - oldHeight) 2
      let offsetX := if offsetX < 0 then 0 else offsetX
      let offsetY := if offsetY < 0 then 0 else offsetY
      match loop2 (Nat.min oldHeight canvasHeight) (Nat.min oldWidth canvasWidth)
          (copyPixel oldData oldWidth canvasWidth canvasHeight offsetX offsetY)
          (some blank) with
      | none => .aborted
      | some pix =>
        .returned true { canvasWidth := canvasWidth, canvasHeight := canvasHeight, pix := pix }
  | _ => .returned false c

/-! ## Loading a sealed payload -/

/-- The two decoders of `encoding/base64` the loaders try in turn, `none`
on a decoding error. -/
structure Base64Lib where
  rawURLDecode : String → Option (List Nat)
  stdDecode : String → Option (List Nat)

/-- Lines 606-613 of `tryLoadWithPassword` (and 565-572 of `loadFromURL`):
the URL-safe decoder first, the standard one when it fails. -/
def decodeString (b64 : Base64Lib) (data : String) : Option (List Nat) :=
  match b64.rawURLDecode data with
  | some d => some d
  | none => b64.stdDecode data

/-- Source `tryLoadWithPassword` (main.go:587).  `args` are the string
values of the JavaScript arguments and `img` is the `img` parameter of
the page URL, `none` when it is absent. -/
def tryLoadWithPassword (fl : Flate) (cr : CryptoLib) (b64 : Base64Lib) (c : Canvas)
    (img : Option String) (args : List String) : LoadResult :=
  match args with
  | [] => .returned false c.pix
  | password :: _ =>
    match img with
    | none => .returned false c.pix
    | some data =>
      if data = "" then .returned false c.pix
      else
        match decodeString b64 data with
        | none => .returned false c.pix
        | some decoded =>
          if decoded.length < 4 ∨ decoded.take 4 ≠ strBytes "ENC:" then
            .returned false c.pix
          else
            match decrypt cr (decoded.drop 4) password with
            | .error _ => .returned false c.pix
            | .ok decrypted =>
              match loadImageData fl c decrypted with
              | .returned true pix => .returned true pix
              | .returned false pix => .returned false pix
              | .aborted => .aborted

/-- A `Base64Lib` that reads a text as the list of its character codes,
to run the loaders on concrete inputs; it stands for no property of
base64 beyond its interface. -/
def demoBase64 : Base64Lib :=
  { rawURLDecode := fun s => some (s.data.map Char.toNat)
    stdDecode := fun _ => none }

/-! # Theorems -/

theorem foldl_range_inv {σ : Type} (n : Nat) (f : σ → Nat → σ) (s0 : σ) (Inv : Nat → σ → Prop)
    (h0 : Inv 0 s0) (hstep : ∀ k s, k < n → Inv k s → Inv (k + 1) (f s k)) :
    Inv n ((List.range n).foldl f s0) := by
  induction n with
  | zero => simpa using h0
  | succ n ih =>
    rw [List.range_succ, List.foldl_append]
    simp only [List.foldl_cons, List.foldl_nil]
    exact hstep n _ (Nat.lt_succ_self n)
      (ih (fun k s hk hi => hstep k s (Nat.lt_succ_of_lt hk) hi))

theorem loop2_inv {σ : Type} (h w : Nat) (body : Nat → Nat → σ → σ) (s0 : σ)
    (Inv : Nat → σ → Prop) (h0 : Inv 0 s0)
    (hstep : ∀ y x s, y < h → x < w → Inv (y * w + x) s → Inv (y * w + x + 1) (body y x s)) :
    Inv (h * w) (loop2 h w body s0) := by
  unfold loop2
  refine foldl_range_inv h _ s0 (fun y s => Inv (y * w) s) (by simpa using h0) ?_
  intro y s hy hi
  have := foldl_range_inv w (fun s x => body y x s) s (fun x s => Inv (y * w + x) s)
    (by simpa using hi) (fun x s hx hxi => hstep y x s hy hx hxi)
  simpa [Nat.succ_mul] using this

theorem loop2_congr {σ : Type} (h w : Nat) (f g : Nat → Nat → σ → σ) (s0 : σ)
    (hfg : ∀ y x s, y < h → x < w → f y x s = g y x s) :
    loop2 h w f s0 = loop2 h w g s0 := by
  unfold loop2
  apply List.foldl_ext
  intro s y hy
  apply List.foldl_ext
  intro s x hx
  exact hfg y x s (List.mem_range.mp hy) (List.mem_range.mp hx)

theorem flat_index_inj {w x y x' y' : Nat} (hx : x < w) (hx' : x' < w)
    (h : y' * w + x' = y * w + x) : x' = x ∧ y' = y := by
  have h1 : (y' * w + x') % w = (y * w + x) % w := by rw [h]
  have h2 : (y' * w + x') / w = (y * w + x) / w := by rw [h]
  have hw : 0 < w := by omega
  rw [Nat.mul_comm y' w, Nat.mul_comm y w] at h1 h2
  rw [Nat.mul_add_mod, Nat.mul_add_mod, Nat.mod_eq_of_lt hx, Nat.mod_eq_of_lt hx'] at h1
  rw [Nat.mul_add_div hw, Nat.mul_add_div hw, Nat.div_eq_of_lt hx, Nat.div_eq_of_lt hx'] at h2
  omega

theorem flat_index_lt {w h x y : Nat} (hx : x < w) : y * w + x < h * w ↔ y < h := by
  constructor
  · intro hlt
    by_contra hge
    have : h * w ≤ y * w := Nat.mul_le_mul_right w (by omega)
    omega
  · intro hy
    have : (y + 1) * w ≤ h * w := Nat.mul_le_mul_right w (by omega)
    rw [Nat.succ_mul] at this
    omega

theorem nonWhite_iff (c : Canvas) (x y : Nat) :
    nonWhite c x y = true ↔
      ¬ (c.chan x y 0 = 255 ∧ c.chan x y 1 = 255 ∧ c.chan x y 2 = 255) := by
  simp only [nonWhite, Canvas.chan, Bool.or_eq_true, bne_iff_ne, Nat.add_zero]
  tauto

theorem isInk_iff (c : Canvas) (x y : Nat) :
    c.IsInk x y ↔ x < c.canvasWidth ∧ y < c.canvasHeight ∧ nonWhite c x y = true := by
  simp only [Canvas.IsInk, nonWhite_iff]

theorem seen_zero (w x y : Nat) : ¬ Seen w 0 x y := by
  simp [Seen]

theorem seen_succ {w x y x' y' : Nat} (hx : x < w) :
    Seen w (y * w + x + 1) x' y' ↔ Seen w (y * w + x) x' y' ∨ (x' = x ∧ y' = y) := by
  unfold Seen
  constructor
  · rintro ⟨hx', hlt⟩
    by_cases h : y' * w + x' = y * w + x
    · exact Or.inr (flat_index_inj hx hx' h)
    · exact Or.inl ⟨hx', by omega⟩
  · rintro (⟨hx', hlt⟩ | ⟨rfl, rfl⟩)
    · exact ⟨hx', by omega⟩
    · exact ⟨hx, by omega⟩

theorem seen_all {w h x y : Nat} : Seen w (h * w) x y ↔ x < w ∧ y < h := by
  unfold Seen
  constructor
  · rintro ⟨hx, hlt⟩
    exact ⟨hx, (flat_index_lt hx).mp hlt⟩
  · rintro ⟨hx, hy⟩
    exact ⟨hx, (flat_index_lt hx).mpr hy⟩

theorem scanInv_init (c : Canvas) :
    ScanInv c 0 { minX := c.canvasWidth, minY := c.canvasHeight, maxX := 0, maxY := 0,
                  hasContent := false } := by
  constructor <;> simp [seen_zero]

theorem scanInv_step (c : Canvas) (y x : Nat) (s : Scan)
    (hy : y < c.canvasHeight) (hx : x < c.canvasWidth)
    (inv : ScanInv c (y * c.canvasWidth + x) s) :
    ScanInv c (y * c.canvasWidth + x + 1) (scanPixel c y x s) := by
  unfold scanPixel
  by_cases hnw : nonWhite c x y = true
  · -- the pixel is ink: the box grows to contain it
    rw [if_pos hnw]
    have hold : s.hasContent = true ∨
        (s.minX = c.canvasWidth ∧ s.minY = c.canvasHeight ∧ s.maxX = 0 ∧ s.maxY = 0) := by
      cases hc : s.hasContent
      · exact Or.inr (inv.blank hc)
      · exact Or.inl rfl
    have hnew : Seen c.canvasWidth (y * c.canvasWidth + x + 1) x y :=
      (seen_succ hx).mpr (Or.inr ⟨rfl, rfl⟩)
    have lift : ∀ {x' y'}, Seen c.canvasWidth (y * c.canvasWidth + x) x' y' →
        Seen c.canvasWidth (y * c.canvasWidth + x + 1) x' y' :=
      fun h => (seen_succ hx).mpr (Or.inl h)
    refine ⟨?_, ?_, ?_, ?_, ?_, ?_, ?_⟩
    · simp only [true_iff]
      exact ⟨x, y, hnew, hnw⟩
    · intro h; simp at h
    · intro x' y' hs hw'
      rcases (seen_succ hx).mp hs with hs | ⟨rfl, rfl⟩
      · have := inv.bound x' y' hs hw'
        simp only
        split_ifs <;> omega
      · simp only
        split_ifs <;> omega
    · intro _
      simp only
      split_ifs with hlt
      · exact ⟨x, y, hnew, hnw, rfl⟩
      · rcases hold with hc | hb
        · obtain ⟨x', y', h1, h2, h3⟩ := inv.hitMinX hc
          exact ⟨x', y', lift h1, h2, h3⟩
        · omega
    · intro _
      simp only
      split_ifs with hlt
      · exact ⟨x, y, hnew, hnw, rfl⟩
      · rcases hold with hc | hb
        · obtain ⟨x', y', h1, h2, h3⟩ := inv.hitMaxX hc
          exact ⟨x', y', lift h1, h2, h3⟩
        · exact ⟨x, y, hnew, hnw, by omega⟩
    · intro _
      simp only
      split_ifs with hlt
      · exact ⟨x, y, hnew, hnw, rfl⟩
      · rcases hold with hc | hb
        · obtain ⟨x', y', h1, h2, h3⟩ := inv.hitMinY hc
          exact ⟨x', y', lift h1, h2, h3⟩
        · omega
    · intro _
      simp only
      split_ifs with hlt
      · exact ⟨x, y, hnew, hnw, rfl⟩
      · rcases hold with hc | hb
        · obtain ⟨x', y', h1, h2, h3⟩ := inv.hitMaxY hc
          exact ⟨x', y', lift h1, h2, h3⟩
        · exact ⟨x, y, hnew, hnw, by omega⟩
  · -- a white pixel leaves the state alone
    rw [if_neg hnw]
    have lift : ∀ {x' y'}, Seen c.canvasWidth (y * c.canvasWidth + x) x' y' →
        Seen c.canvasWidth (y * c.canvasWidth + x + 1) x' y' :=
      fun h => (seen_succ hx).mpr (Or.inl h)
    have drop : ∀ {x' y'}, Seen c.canvasWidth (y * c.canvasWidth + x + 1) x' y' →
        nonWhite c x' y' = true → Seen c.canvasWidth (y * c.canvasWidth + x) x' y' := by
      intro x' y' hs hw'
      rcases (seen_succ hx).mp hs with hs | ⟨rfl, rfl⟩
      · exact hs
      · exact absurd hw' hnw
    refine ⟨?_, inv.blank, ?_, ?_, ?_, ?_, ?_⟩
    · rw [inv.content]
      constructor
      · rintro ⟨x', y', h1, h2⟩; exact ⟨x', y', lift h1, h2⟩
      · rintro ⟨x', y', h1, h2⟩; exact ⟨x', y', drop h1 h2, h2⟩
    · intro x' y' hs hw'
      exact inv.bound x' y' (drop hs hw') hw'
    · intro hc
      obtain ⟨x', y', h1, h2, h3⟩ := inv.hitMinX hc
      exact ⟨x', y', lift h1, h2, h3⟩
    · intro hc
      obtain ⟨x', y', h1, h2, h3⟩ := inv.hitMaxX hc
      exact ⟨x', y', lift h1, h2, h3⟩
    · intro hc
      obtain ⟨x', y', h1, h2, h3⟩ := inv.hitMinY hc
      exact ⟨x', y', lift h1, h2, h3⟩
    · intro hc
      obtain ⟨x', y', h1, h2, h3⟩ := inv.hitMaxY hc
      exact ⟨x', y', lift h1, h2, h3⟩

theorem scan_inv (c : Canvas) : ScanInv c (c.canvasHeight * c.canvasWidth) (scan c) := by
  unfold scan
  exact loop2_inv c.canvasHeight c.canvasWidth (scanPixel c) _ (ScanInv c) (scanInv_init c)
    (fun y x s hy hx hi => scanInv_step c y x s hy hx hi)

theorem max_eq (a b : Int) : max a b = Max.max a b := by
  unfold max; split_ifs <;> omega

theorem min_eq (a b : Int) : min a b = Min.min a b := by
  unfold min; split_ifs <;> omega

theorem seen_all_ink (c : Canvas) (x y : Nat) :
    (Seen c.canvasWidth (c.canvasHeight * c.canvasWidth) x y ∧ nonWhite c x y = true) ↔
      c.IsInk x y := by
  rw [seen_all, isInk_iff]; tauto

theorem scan_hasContent_iff (c : Canvas) :
    (scan c).hasContent = true ↔ ∃ x y, c.IsInk x y := by
  rw [(scan_inv c).content]
  simp only [seen_all_ink]

theorem scan_bound (c : Canvas) {x y : Nat} (h : c.IsInk x y) :
    (scan c).minX ≤ x ∧ (x : Int) ≤ (scan c).maxX ∧
      (scan c).minY ≤ y ∧ (y : Int) ≤ (scan c).maxY := by
  have := (seen_all_ink c x y).mpr h
  exact (scan_inv c).bound x y this.1 this.2

theorem scan_hitMinX (c : Canvas) (h : (scan c).hasContent = true) :
    ∃ x y, c.IsInk x y ∧ (scan c).minX = x := by
  obtain ⟨x, y, h1, h2, h3⟩ := (scan_inv c).hitMinX h
  exact ⟨x, y, (seen_all_ink c x y).mp ⟨h1, h2⟩, h3⟩

theorem scan_hitMaxX (c : Canvas) (h : (scan c).hasContent = true) :
    ∃ x y, c.IsInk x y ∧ (scan c).maxX = x := by
  obtain ⟨x, y, h1, h2, h3⟩ := (scan_inv c).hitMaxX h
  exact ⟨x, y, (seen_all_ink c x y).mp ⟨h1, h2⟩, h3⟩

theorem scan_hitMinY (c : Canvas) (h : (scan c).hasContent = true) :
    ∃ x y, c.IsInk x y ∧ (scan c).minY = y := by
  obtain ⟨x, y, h1, h2, h3⟩ := (scan_inv c).hitMinY h
  exact ⟨x, y, (seen_all_ink c x y).mp ⟨h1, h2⟩, h3⟩

theorem scan_hitMaxY (c : Canvas) (h : (scan c).hasContent = true) :
    ∃ x y, c.IsInk x y ∧ (scan c).maxY = y := by
  obtain ⟨x, y, h1, h2, h3⟩ := (scan_inv c).hitMaxY h
  exact ⟨x, y, (seen_all_ink c x y).mp ⟨h1, h2⟩, h3⟩

/-- The scan's extremes are the extreme ink coordinates. -/
theorem scan_extremes (c : Canvas) (xmin xmax ymin ymax : Nat)
    (hxmin : (∃ y, c.IsInk xmin y) ∧ ∀ x y, c.IsInk x y → xmin ≤ x)
    (hxmax : (∃ y, c.IsInk xmax y) ∧ ∀ x y, c.IsInk x y → x ≤ xmax)
    (hymin : (∃ x, c.IsInk x ymin) ∧ ∀ x y, c.IsInk x y → ymin ≤ y)
    (hymax : (∃ x, c.IsInk x ymax) ∧ ∀ x y, c.IsInk x y → y ≤ ymax) :
    (scan c).hasContent = true ∧ (scan c).minX = xmin ∧ (scan c).maxX = xmax ∧
      (scan c).minY = ymin ∧ (scan c).maxY = ymax := by
  obtain ⟨⟨y0, hy0⟩, hxlo⟩ := hxmin
  obtain ⟨⟨y1, hy1⟩, hxhi⟩ := hxmax
  obtain ⟨⟨x0, hx0⟩, hylo⟩ := hymin
  obtain ⟨⟨x1, hx1⟩, hyhi⟩ := hymax
  have hc : (scan c).hasContent = true := (scan_hasContent_iff c).mpr ⟨xmin, y0, hy0⟩
  obtain ⟨a, a', ha, ea⟩ := scan_hitMinX c hc
  obtain ⟨b, b', hb, eb⟩ := scan_hitMaxX c hc
  obtain ⟨d', d, hd, ed⟩ := scan_hitMinY c hc
  obtain ⟨e', e, he, ee⟩ := scan_hitMaxY c hc
  have b0 := scan_bound c hy0
  have b1 := scan_bound c hy1
  have b2 := scan_bound c hx0
  have b3 := scan_bound c hx1
  have := hxlo a a' ha
  have := hxhi b b' hb
  have := hylo d' d hd
  have := hyhi e' e he
  refine ⟨hc, ?_, ?_, ?_, ?_⟩ <;> omega

/-- The rectangle of a canvas with ink, in terms of the scan. -/
theorem contentBounds_of_content (c : Canvas) (h : (scan c).hasContent = true) :
    contentBounds c = some
      { minX := Max.max 0 ((scan c).minX - 2)
        minY := Max.max 0 ((scan c).minY - 2)
        width := Min.min ((c.canvasWidth : Int) - 1) ((scan c).maxX + 2)
                  - Max.max 0 ((scan c).minX - 2) + 1
        height := Min.min ((c.canvasHeight : Int) - 1) ((scan c).maxY + 2)
                  - Max.max 0 ((scan c).minY - 2) + 1 } := by
  simp only [contentBounds, h, max_eq, min_eq]
  rfl

theorem contentBounds_none_iff (c : Canvas) :
    contentBounds c = none ↔ (scan c).hasContent = false := by
  unfold contentBounds
  cases h : (scan c).hasContent <;> simp [h]

theorem planeInv_init (n : Nat) (val : Nat → Nat) :
    PlaneInv n 0 val (List.replicate n 0) := by
  refine ⟨by simp, ?_⟩
  intro j t hj
  simp [List.getD_eq_getElem?_getD, List.getElem?_replicate, hj]

theorem planeInv_step {n k : Nat} {val : Nat → Nat} {plane : List Nat}
    (inv : PlaneInv n k val plane) (hk : k < 8 * n) :
    PlaneInv n (k + 1) val
      (if val k > 128 then orBit plane (k / 8) (7 - k % 8) else plane) := by
  obtain ⟨hlen, hbits⟩ := inv
  have hbyte : k / 8 < plane.length := by omega
  split_ifs with hv
  · refine ⟨by simp [orBit, hlen], ?_⟩
    intro j t hj
    have hold := hbits j t hj
    by_cases hjk : j = k / 8
    · subst hjk
      have hget : (orBit plane (k / 8) (7 - k % 8)).getD (k / 8) 0 =
          plane.getD (k / 8) 0 ||| 2 ^ (7 - k % 8) := by
        simp [orBit, List.getD_eq_getElem?_getD, List.getElem?_set, hbyte, Nat.one_shiftLeft]
      rw [hget, Nat.testBit_or, hold, Nat.testBit_two_pow]
      by_cases ht : 7 - k % 8 = t
      · have e : 8 * (k / 8) + (7 - t) = k := by omega
        have : t < 8 := by omega
        simp [ht, e, hv, this]
      · by_cases ht8 : t < 8
        · have ne : 8 * (k / 8) + (7 - t) ≠ k := by omega
          have : (8 * (k / 8) + (7 - t) < k + 1) ↔ (8 * (k / 8) + (7 - t) < k) := by omega
          simp [ht, this]
        · simp [ht, ht8]
    · have hget : (orBit plane (k / 8) (7 - k % 8)).getD j 0 = plane.getD j 0 := by
        simp [orBit, List.getD_eq_getElem?_getD, List.getElem?_set, Ne.symm hjk]
      rw [hget, hold]
      by_cases ht8 : t < 8
      · have : (8 * j + (7 - t) < k + 1) ↔ (8 * j + (7 - t) < k) := by omega
        simp [this]
      · simp [ht8]
  · refine ⟨hlen, ?_⟩
    intro j t hj
    rw [hbits j t hj]
    by_cases ht8 : t < 8
    · by_cases e : 8 * j + (7 - t) = k
      · rw [e]
        have : ¬ (val k > 128) := hv
        simp [this]
      · have : (8 * j + (7 - t) < k + 1) ↔ (8 * j + (7 - t) < k) := by omega
        simp [this]
    · simp [ht8]

theorem regionChan_flat (c : Canvas) (minX minY w ch : Nat) {x : Nat} (y : Nat) (hx : x < w) :
    regionChan c minX minY w ch (y * w + x) = c.chan (minX + x) (minY + y) ch := by
  have hw : 0 < w := by omega
  unfold regionChan
  rw [Nat.mul_comm y w, Nat.mul_add_mod, Nat.mod_eq_of_lt hx, Nat.mul_add_div hw,
    Nat.div_eq_of_lt hx, Nat.add_zero]

theorem packInv_step (c : Canvas) (minX minY w h n : Nat) (hn : h * w ≤ 8 * n)
    (y x : Nat) (p : Planes) (hy : y < h) (hx : x < w)
    (inv : PackInv c minX minY w n (y * w + x) p) :
    PackInv c minX minY w n (y * w + x + 1) (packPixel c minX minY y x p) := by
  have hk : y * w + x < 8 * n := by
    have := (flat_index_lt (h := h) (y := y) hx).mpr hy
    omega
  have hr := planeInv_step inv.r hk
  have hg := planeInv_step inv.g hk
  have hb := planeInv_step inv.b hk
  rw [regionChan_flat c minX minY w _ y hx] at hr hg hb
  have hidx := inv.idx
  refine ⟨?_, ?_, ?_, ?_⟩
  · simp [packPixel, hidx]
  · simpa [packPixel, hidx, Canvas.chan] using hr
  · simpa [packPixel, hidx, Canvas.chan, Nat.add_assoc] using hg
  · simpa [packPixel, hidx, Canvas.chan, Nat.add_assoc] using hb

theorem numBytes_toNat (w h : Int) (hw : 0 ≤ w) (hh : 0 ≤ h) :
    ((w * h + 7) / 8).toNat = (w.toNat * h.toNat + 7) / 8 := by
  obtain ⟨a, rfl⟩ := Int.eq_ofNat_of_zero_le hw
  obtain ⟨b, rfl⟩ := Int.eq_ofNat_of_zero_le hh
  simp only [Int.toNat_ofNat]
  have : ((a : Int) * b + 7) / 8 = (((a * b + 7) / 8 : Nat) : Int) := by
    push_cast; rfl
  rw [this, Int.toNat_ofNat]

theorem packPlanes_inv (c : Canvas) (b : Bounds) (hw : 0 ≤ b.width) (hh : 0 ≤ b.height) :
    PackInv c b.minX.toNat b.minY.toNat b.width.toNat
      ((b.width.toNat * b.height.toNat + 7) / 8) (b.height.toNat * b.width.toNat)
      (packPlanes c b) := by
  unfold packPlanes
  simp only [numBytes_toNat b.width b.height hw hh]
  refine loop2_inv b.height.toNat b.width.toNat _ _
    (PackInv c b.minX.toNat b.minY.toNat b.width.toNat
      ((b.width.toNat * b.height.toNat + 7) / 8)) ?_ ?_
  · exact ⟨rfl, planeInv_init _ _, planeInv_init _ _, planeInv_init _ _⟩
  · intro y x s hy hx hi
    refine packInv_step c _ _ _ b.height.toNat _ ?_ y x s hy hx hi
    rw [Nat.mul_comm b.height.toNat]
    omega

theorem and_two_pow_ne_zero (v t : Nat) : (v &&& 2 ^ t ≠ 0) ↔ v.testBit t = true := by
  constructor
  · intro h
    by_contra hb
    apply h
    apply Nat.eq_of_testBit_eq
    intro i
    rw [Nat.testBit_and, Nat.testBit_two_pow, Nat.zero_testBit]
    by_cases e : t = i
    · subst e; simp [hb]
    · simp [e]
  · intro hb h
    have := congrArg (fun n => n.testBit t) h
    simp [Nat.testBit_and, Nat.testBit_two_pow, hb] at this

theorem chanVal_eq {plane : List Nat} {k : Nat} (hk : k / 8 < plane.length) :
    chanVal plane (k / 8) (7 - k % 8) = some (bitVal plane k) := by
  unfold chanVal bitVal planeBit
  have h1 : plane.get? (k / 8) = some (plane.getD (k / 8) 0) := by
    simp [List.getD_eq_getElem?_getD, List.getElem?_eq_getElem hk]
  rw [h1]
  simp only [Nat.one_shiftLeft]
  by_cases hb : (plane.getD (k / 8) 0).testBit (7 - k % 8) = true
  · rw [if_pos ((and_two_pow_ne_zero _ _).mpr hb), if_pos hb]
  · rw [if_neg (fun h => hb ((and_two_pow_ne_zero _ _).mp h)), if_neg hb]

theorem chanVal_none {plane : List Nat} {byteIdx bitPos : Nat} (h : plane.length ≤ byteIdx) :
    chanVal plane byteIdx bitPos = none := by
  unfold chanVal
  have : plane.get? byteIdx = none := by simp [h]
  rw [this]

theorem pixIdx_eq (W X Y ch : Nat) : Y * (4 * W) + X * 4 + ch = 4 * (Y * W + X) + ch := by
  ring

theorem pixIdx_lt {W H X Y ch : Nat} (hX : X < W) (hY : Y < H) (hch : ch < 4) :
    Y * (4 * W) + X * 4 + ch < 4 * W * H := by
  have h1 := (flat_index_lt (h := H) (y := Y) hX).mpr hY
  have h2 : 4 * W * H = 4 * (H * W) := by ring
  rw [pixIdx_eq, h2]
  omega

theorem pixIdx_inj {W X Y ch X' Y' ch' : Nat} (hX : X < W) (hX' : X' < W) (hch : ch < 4)
    (hch' : ch' < 4) (h : Y' * (4 * W) + X' * 4 + ch' = Y * (4 * W) + X * 4 + ch) :
    X' = X ∧ Y' = Y ∧ ch' = ch := by
  rw [pixIdx_eq, pixIdx_eq] at h
  have h1 : Y' * W + X' = Y * W + X := by omega
  have := flat_index_inj hX hX' h1
  omega

theorem getD_set4 (l : List Nat) (idx q r g b a : Nat) (h : idx + 3 < l.length) :
    ((((l.set idx r).set (idx + 1) g).set (idx + 2) b).set (idx + 3) a).getD q 0 =
      if q = idx then r else if q = idx + 1 then g else if q = idx + 2 then b
      else if q = idx + 3 then a else l.getD q 0 := by
  simp only [List.getD_eq_getElem?_getD, List.getElem?_set, List.length_set]
  split_ifs <;> first | rfl | omega

theorem loadedChan_skip {offX offY w : Nat} {rP gP bP : List Nat} {x y X Y ch : Nat}
    (hx : x < w) (hne : ¬ (X = offX + x ∧ Y = offY + y)) :
    loadedChan offX offY w rP gP bP (y * w + x + 1) X Y ch =
      loadedChan offX offY w rP gP bP (y * w + x) X Y ch := by
  unfold loadedChan
  by_cases hin : offX ≤ X ∧ X < offX + w ∧ offY ≤ Y
  · have hxw : X - offX < w := by omega
    have hk : (Y - offY) * w + (X - offX) ≠ y * w + x := by
      intro e
      have := flat_index_inj hx hxw e
      omega
    have : ((Y - offY) * w + (X - offX) < y * w + x + 1) ↔
        ((Y - offY) * w + (X - offX) < y * w + x) := by omega
    simp only [this]
  · have h1 : ¬ (offX ≤ X ∧ X < offX + w ∧ offY ≤ Y ∧
        (Y - offY) * w + (X - offX) < y * w + x + 1) := fun h => hin ⟨h.1, h.2.1, h.2.2.1⟩
    have h2 : ¬ (offX ≤ X ∧ X < offX + w ∧ offY ≤ Y ∧
        (Y - offY) * w + (X - offX) < y * w + x) := fun h => hin ⟨h.1, h.2.1, h.2.2.1⟩
    rw [if_neg h1, if_neg h2]

theorem loadedChan_hit {offX offY w : Nat} {rP gP bP : List Nat} {x y ch : Nat}
    (hx : x < w) :
    loadedChan offX offY w rP gP bP (y * w + x + 1) (offX + x) (offY + y) ch =
      match ch with
      | 0 => bitVal rP (y * w + x)
      | 1 => bitVal gP (y * w + x)
      | 2 => bitVal bP (y * w + x)
      | _ => 255 := by
  unfold loadedChan
  have e1 : offY + y - offY = y := by omega
  have e2 : offX + x - offX = x := by omega
  rw [e1, e2]
  have : offX ≤ offX + x ∧ offX + x < offX + w ∧ offY ≤ offY + y ∧ y * w + x < y * w + x + 1 := by
    omega
  rw [if_pos this]

theorem reconInv_step (c : Canvas) (offX offY w h : Nat) (rP gP bP : List Nat)
    (hwf : c.WF)
    (hr : h * w ≤ 8 * rP.length) (hg : h * w ≤ 8 * gP.length) (hb : h * w ≤ 8 * bP.length)
    (y x : Nat) (s : Option Recon) (hy : y < h) (hx : x < w)
    (inv : ReconInv c offX offY w rP gP bP (y * w + x) s) :
    ReconInv c offX offY w rP gP bP (y * w + x + 1)
      (reconPixel c offX offY rP gP bP y x s) := by
  obtain ⟨st, rfl, hidx, hlen, hpix⟩ := inv
  have hk : y * w + x < h * w := (flat_index_lt hx).mpr hy
  have hwf' : c.pix.length = 4 * c.canvasWidth * c.canvasHeight := hwf
  simp only [reconPixel, hidx]
  rw [chanVal_eq (by omega), chanVal_eq (by omega), chanVal_eq (by omega)]
  simp only
  by_cases hguard : offX + x < c.canvasWidth ∧ offY + y < c.canvasHeight
  · rw [if_pos hguard]
    have hin : (offY + y) * c.stride + (offX + x) * 4 + 3 < st.pix.length := by
      rw [hlen, hwf']
      exact pixIdx_lt hguard.1 hguard.2 (by omega)
    rw [if_pos hin]
    refine ⟨_, rfl, rfl, by simp [hlen], ?_⟩
    intro X Y ch hX hY hch
    simp only
    rw [getD_set4 _ _ _ _ _ _ _ hin]
    by_cases hsame : X = offX + x ∧ Y = offY + y
    · obtain ⟨rfl, rfl⟩ := hsame
      rw [loadedChan_hit hx]
      have : ch = 0 ∨ ch = 1 ∨ ch = 2 ∨ ch = 3 := by omega
      rcases this with rfl | rfl | rfl | rfl <;> simp
    · rw [loadedChan_skip hx hsame, ← hpix X Y ch hX hY hch]
      have hne : ∀ ch', ch' < 4 →
          Y * c.stride + X * 4 + ch ≠ (offY + y) * c.stride + (offX + x) * 4 + ch' := by
        intro ch' hch' e
        have := pixIdx_inj hguard.1 hX hch' hch e
        exact hsame ⟨this.1, this.2.1⟩
      have n0 := hne 0 (by omega)
      have n1 := hne 1 (by omega)
      have n2 := hne 2 (by omega)
      have n3 := hne 3 (by omega)
      rw [if_neg (by simpa using n0), if_neg n1, if_neg n2, if_neg n3]
  · rw [if_neg hguard]
    refine ⟨_, rfl, rfl, hlen, ?_⟩
    intro X Y ch hX hY hch
    have hsame : ¬ (X = offX + x ∧ Y = offY + y) := by
      rintro ⟨rfl, rfl⟩
      exact hguard ⟨hX, hY⟩
    rw [loadedChan_skip hx hsame]
    exact hpix X Y ch hX hY hch

theorem loadedChan_zero (offX offY w : Nat) (rP gP bP : List Nat) (X Y ch : Nat) :
    loadedChan offX offY w rP gP bP 0 X Y ch = 255 := by
  simp [loadedChan]

theorem recon_loop (c : Canvas) (offX offY w h : Nat) (rP gP bP : List Nat) (hwf : c.WF)
    (hr : h * w ≤ 8 * rP.length) (hg : h * w ≤ 8 * gP.length) (hb : h * w ≤ 8 * bP.length) :
    ReconInv c offX offY w rP gP bP (h * w)
      (loop2 h w (reconPixel c offX offY rP gP bP)
        (some { pix := c.pix.map (fun _ => 255), bitIdx := 0 })) := by
  refine loop2_inv h w _ _ (ReconInv c offX offY w rP gP bP) ?_ ?_
  · refine ⟨_, rfl, rfl, by simp, ?_⟩
    intro X Y ch hX hY hch
    have hlt : Y * c.stride + X * 4 + ch < c.pix.length := by
      rw [hwf]; exact pixIdx_lt hX hY hch
    rw [loadedChan_zero]
    simp [List.getD_eq_getElem?_getD, List.getElem?_replicate, hlt]
  · intro y x s hy hx hi
    exact reconInv_step c offX offY w h rP gP bP hwf hr hg hb y x s hy hx hi

theorem readU16_putU16 (v : Nat) (rest : List Nat) (hv : v < 65536) :
    readU16 (putU16 v ++ rest) = some (v, rest) := by
  simp only [putU16, readU16, List.cons_append, List.nil_append]
  congr 2
  omega

theorem readU32_putU32 (v : Nat) (rest : List Nat) (hv : v < 4294967296) :
    readU32 (putU32 v ++ rest) = some (v, rest) := by
  simp only [putU32, readU32, List.cons_append, List.nil_append]
  congr 2
  omega

theorem readSeg_exact (seg rest : List Nat) (h : seg ++ rest ≠ []) :
    readSeg seg.length (seg ++ rest) = some (seg, rest) := by
  unfold readSeg
  rw [if_neg h]
  simp

theorem putU32_ne_nil (v : Nat) (rest : List Nat) : putU32 v ++ rest ≠ [] := by
  simp [putU32]

/-- Loading a well-formed container whose segments have their declared
lengths: the call returns `true` and the buffer is the painted rectangle
on a white ground. -/
theorem loadImageData_container (fl : Flate) (c : Canvas) (hwf : c.WF)
    (offX offY w h : Nat) (sR sG sB pR pG pB : List Nat)
    (h1 : offX < 65536) (h2 : offY < 65536) (h3 : w < 65536) (h4 : h < 65536)
    (lR : sR.length < 4294967296) (lG : sG.length < 4294967296) (lB : sB.length < 4294967296)
    (hne : sB ≠ [])
    (iR : fl.inflate sR = some pR) (iG : fl.inflate sG = some pG) (iB : fl.inflate sB = some pB)
    (hr : h * w ≤ 8 * pR.length) (hg : h * w ≤ 8 * pG.length) (hb : h * w ≤ 8 * pB.length) :
    ∃ pix, loadImageData fl c
        (putU16 offX ++ putU16 offY ++ putU16 w ++ putU16 h ++
          putU32 sR.length ++ sR ++ putU32 sG.length ++ sG ++ putU32 sB.length ++ sB)
        = .returned true pix ∧ pix.length = c.pix.length ∧
      ∀ X Y ch, X < c.canvasWidth → Y < c.canvasHeight → ch < 4 →
        pix.getD (Y * c.stride + X * 4 + ch) 0 = loadedChan offX offY w pR pG pB (h * w) X Y ch := by
  obtain ⟨st, hst, -, hlen, hpix⟩ := recon_loop c offX offY w h pR pG pB hwf hr hg hb
  refine ⟨st.pix, ?_, hlen, hpix⟩
  unfold loadImageData
  simp only [List.append_assoc]
  rw [readU16_putU16 _ _ h1]; simp only
  rw [readU16_putU16 _ _ h2]; simp only
  rw [readU16_putU16 _ _ h3]; simp only
  rw [readU16_putU16 _ _ h4]; simp only
  rw [readU32_putU32 _ _ lR]; simp only
  rw [readSeg_exact sR _ (by simp [putU32])]; simp only [decompressPlane, iR]
  rw [readU32_putU32 _ _ lG]; simp only
  rw [readSeg_exact sG _ (by simp [putU32])]; simp only [iG]
  rw [readU32_putU32 _ _ lB]; simp only
  have := readSeg_exact sB [] (by simpa using hne)
  rw [List.append_nil] at this
  rw [this]; simp only [iB, hst]

theorem planeBit_of_inv {n k : Nat} {val : Nat → Nat} {plane : List Nat}
    (inv : PlaneInv n k val plane) {i : Nat} (hi : i < 8 * n) :
    planeBit plane i = (decide (i < k) && decide (val i > 128)) := by
  unfold planeBit
  rw [inv.2 (i / 8) (7 - i % 8) (by omega)]
  have e : 8 * (i / 8) + (7 - (7 - i % 8)) = i := by omega
  have : 7 - i % 8 < 8 := by omega
  simp [e, this]

theorem planeBit_high {plane : List Nat} {i : Nat} (hi : 8 * plane.length ≤ i) :
    planeBit plane i = false := by
  unfold planeBit
  have : plane.length ≤ i / 8 := by omega
  simp [List.getD_eq_getElem?_getD, List.getElem?_eq_none this]

theorem planeInv_byte_lt {n k : Nat} {val : Nat → Nat} {plane : List Nat}
    (inv : PlaneInv n k val plane) {j : Nat} (hj : j < n) : plane.getD j 0 < 256 := by
  have : plane.getD j 0 < 2 ^ 8 := by
    apply Nat.lt_pow_two_of_testBit
    intro t ht
    rw [inv.2 j t hj]
    have : ¬ t < 8 := by omega
    simp [this]
  simpa using this

theorem contentBounds_facts (c : Canvas) (b : Bounds) (hb : contentBounds c = some b) :
    0 ≤ b.minX ∧ 0 ≤ b.minY ∧ 1 ≤ b.width ∧ 1 ≤ b.height ∧
      b.minX + b.width ≤ c.canvasWidth ∧ b.minY + b.height ≤ c.canvasHeight ∧
      ∀ x y, c.IsInk x y →
        b.minX ≤ x ∧ (x : Int) < b.minX + b.width ∧ b.minY ≤ y ∧ (y : Int) < b.minY + b.height := by
  have hc : (scan c).hasContent = true := by
    by_contra h
    have : (scan c).hasContent = false := by simpa using h
    rw [(contentBounds_none_iff c).mpr this] at hb
    exact absurd hb (by simp)
  rw [contentBounds_of_content c hc] at hb
  obtain ⟨a, a', ha, ea⟩ := scan_hitMinX c hc
  obtain ⟨d, d', hd, ed⟩ := scan_hitMaxX c hc
  obtain ⟨e', e, he, ee⟩ := scan_hitMinY c hc
  obtain ⟨f', f, hf, ef⟩ := scan_hitMaxY c hc
  have ba := scan_bound c ha
  have bd := scan_bound c hd
  have be := scan_bound c he
  have bf := scan_bound c hf
  have ha' := ha.1
  have hd' := hd.1
  have he' := he.2.1
  have hf' := hf.2.1
  injection hb with hb
  subst hb
  refine ⟨?_, ?_, ?_, ?_, ?_, ?_, ?_⟩
  · simp only; omega
  · simp only; omega
  · simp only; omega
  · simp only; omega
  · simp only; omega
  · simp only; omega
  · intro x y hxy
    have := scan_bound c hxy
    have := hxy.1
    have := hxy.2.1
    simp only
    omega

theorem uint16_eq (v : Int) (h0 : 0 ≤ v) (h1 : v < 65536) : uint16 v = v.toNat := by
  unfold uint16
  rw [Int.emod_eq_of_lt h0 h1]

theorem bitVal_packed {n k : Nat} {val : Nat → Nat} {plane : List Nat}
    (inv : PlaneInv n k val plane) (hn : k ≤ 8 * n) {i : Nat} (hi : i < k) :
    bitVal plane i = binarized (val i) := by
  unfold bitVal binarized
  rw [planeBit_of_inv inv (by omega)]
  simp [hi]

theorem loadedChan_packed (c : Canvas) (b : Bounds) (p : Planes)
    (h0x : 0 ≤ b.minX) (h0y : 0 ≤ b.minY) (h0w : 0 ≤ b.width) (h0h : 0 ≤ b.height)
    (inv : PackInv c b.minX.toNat b.minY.toNat b.width.toNat
      ((b.width.toNat * b.height.toNat + 7) / 8) (b.height.toNat * b.width.toNat) p)
    (X Y ch : Nat) (hch : ch < 4) :
    loadedChan b.minX.toNat b.minY.toNat b.width.toNat p.rPlane p.gPlane p.bPlane
      (b.height.toNat * b.width.toNat) X Y ch = reloadedChan c b X Y ch := by
  have hn : b.height.toNat * b.width.toNat ≤
      8 * ((b.width.toNat * b.height.toNat + 7) / 8) := by
    rw [Nat.mul_comm b.height.toNat]; omega
  unfold loadedChan reloadedChan
  by_cases hin : b.minX ≤ X ∧ (X : Int) < b.minX + b.width ∧ b.minY ≤ Y ∧
      (Y : Int) < b.minY + b.height
  · have hxw : X - b.minX.toNat < b.width.toNat := by omega
    have hyh : Y - b.minY.toNat < b.height.toNat := by omega
    have hlt := (flat_index_lt (h := b.height.toNat) (y := Y - b.minY.toNat) hxw).mpr hyh
    have hcond : b.minX.toNat ≤ X ∧ X < b.minX.toNat + b.width.toNat ∧ b.minY.toNat ≤ Y ∧
        (Y - b.minY.toNat) * b.width.toNat + (X - b.minX.toNat) <
          b.height.toNat * b.width.toNat := ⟨by omega, by omega, by omega, hlt⟩
    rw [if_pos hcond, if_pos hin]
    have ex : b.minX.toNat + (X - b.minX.toNat) = X := by omega
    have ey : b.minY.toNat + (Y - b.minY.toNat) = Y := by omega
    have hR := bitVal_packed inv.r hn hlt
    have hG := bitVal_packed inv.g hn hlt
    have hB := bitVal_packed inv.b hn hlt
    rw [regionChan_flat _ _ _ _ _ _ hxw, ex, ey] at hR hG hB
    have : ch = 0 ∨ ch = 1 ∨ ch = 2 ∨ ch = 3 := by omega
    rcases this with rfl | rfl | rfl | rfl
    · simpa using hR
    · simpa using hG
    · simpa using hB
    · simp
  · rw [if_neg hin]
    have hcond : ¬ (b.minX.toNat ≤ X ∧ X < b.minX.toNat + b.width.toNat ∧ b.minY.toNat ≤ Y ∧
        (Y - b.minY.toNat) * b.width.toNat + (X - b.minX.toNat) <
          b.height.toNat * b.width.toNat) := by
      rintro ⟨c1, c2, c3, c4⟩
      have hxw : X - b.minX.toNat < b.width.toNat := by omega
      have := (flat_index_lt (h := b.height.toNat) (y := Y - b.minY.toNat) hxw).mp c4
      apply hin
      omega
    rw [if_neg hcond]

/-- Export followed by load: the loader accepts the container built for
the rectangle `b` of `c`, and leaves `reloadedChan c b` in the buffer. -/
theorem load_export (fl : Flate) (c c' : Canvas) (b : Bounds)
    (hb : contentBounds c = some b)
    (hW : c.canvasWidth < 65536) (hH : c.canvasHeight < 65536) (hwf' : c'.WF)
    (hrt : ∀ p, fl.inflate (fl.deflate p) = some p)
    (hne : ∀ p, fl.deflate p ≠ [])
    (hlt : ∀ p, p.length = (b.width.toNat * b.height.toNat + 7) / 8 →
      (fl.deflate p).length < 4294967296) :
    ∃ pix, loadImageData fl c' (container fl b (packPlanes c b)) = .returned true pix ∧
      pix.length = c'.pix.length ∧
      ∀ X Y ch, X < c'.canvasWidth → Y < c'.canvasHeight → ch < 4 →
        pix.getD (Y * c'.stride + X * 4 + ch) 0 = reloadedChan c b X Y ch := by
  obtain ⟨f1, f2, f3, f4, f5, f6, -⟩ := contentBounds_facts c b hb
  have inv := packPlanes_inv c b (by omega) (by omega)
  have hn : b.height.toNat * b.width.toNat ≤
      8 * ((b.width.toNat * b.height.toNat + 7) / 8) := by
    rw [Nat.mul_comm b.height.toNat]; omega
  obtain ⟨pix, hload, hlen, hpix⟩ := loadImageData_container fl c' hwf'
    b.minX.toNat b.minY.toNat b.width.toNat b.height.toNat
    (fl.deflate (packPlanes c b).rPlane) (fl.deflate (packPlanes c b).gPlane)
    (fl.deflate (packPlanes c b).bPlane)
    (packPlanes c b).rPlane (packPlanes c b).gPlane (packPlanes c b).bPlane
    (by omega) (by omega) (by omega) (by omega)
    (hlt _ inv.r.1) (hlt _ inv.g.1) (hlt _ inv.b.1) (hne _) (hrt _) (hrt _) (hrt _)
    (by rw [inv.r.1]; exact hn) (by rw [inv.g.1]; exact hn) (by rw [inv.b.1]; exact hn)
  refine ⟨pix, ?_, hlen, ?_⟩
  · rw [← hload]
    unfold container compressPlane
    simp only [uint16_eq b.minX f1 (by omega), uint16_eq b.minY f2 (by omega),
      uint16_eq b.width (by omega) (by omega), uint16_eq b.height (by omega) (by omega),
      uint32, Nat.mod_eq_of_lt (hlt _ inv.r.1), Nat.mod_eq_of_lt (hlt _ inv.g.1),
      Nat.mod_eq_of_lt (hlt _ inv.b.1)]
  · intro X Y ch hX hY hch
    rw [hpix X Y ch hX hY hch]
    exact loadedChan_packed c b _ f1 f2 (by omega) (by omega) inv X Y ch hch

theorem pix_ext {W H : Nat} {l1 l2 : List Nat} (h1 : l1.length = 4 * W * H)
    (h2 : l2.length = 4 * W * H)
    (h : ∀ X Y ch, X < W → Y < H → ch < 4 →
      l1.getD (Y * (4 * W) + X * 4 + ch) 0 = l2.getD (Y * (4 * W) + X * 4 + ch) 0) :
    l1 = l2 := by
  apply List.ext_getElem (by rw [h1, h2])
  intro n hn1 hn2
  have hW : 0 < W := by
    rcases Nat.eq_zero_or_pos W with h0 | h0
    · rw [h1, h0] at hn1; simp at hn1
    · exact h0
  have hq : n / 4 < H * W := by
    have : 4 * W * H = 4 * (H * W) := by ring
    omega
  have hY : n / 4 / W < H := (Nat.div_lt_iff_lt_mul hW).mpr hq
  have hX : n / 4 % W < W := Nat.mod_lt _ hW
  have hdm : n / 4 / W * W + n / 4 % W = n / 4 := by
    rw [Nat.mul_comm]; exact Nat.div_add_mod _ _
  have hidx : n / 4 / W * (4 * W) + n / 4 % W * 4 + n % 4 = n := by
    rw [pixIdx_eq, hdm]; omega
  have := h (n / 4 % W) (n / 4 / W) (n % 4) hX hY (by omega)
  rw [hidx, List.getD_eq_getElem _ _ hn1, List.getD_eq_getElem _ _ hn2] at this
  exact this

theorem exportData_empty_password (fl : Flate) (cr : CryptoLib) (rnd : Option (Nat → Nat))
    (c : Canvas) (b : Bounds) (hb : contentBounds c = some b) :
    exportData fl cr rnd c "" = some (container fl b (packPlanes c b)) := by
  simp [exportData, hb]

theorem contentBounds_some_of_ink (c : Canvas) (hink : ∃ x y, c.IsInk x y) :
    ∃ b, contentBounds c = some b := by
  have hc := (scan_hasContent_iff c).mpr hink
  exact ⟨_, contentBounds_of_content c hc⟩

theorem plane_size_le (b : Bounds) (W H : Nat) (hw : b.width ≤ W) (hh : b.height ≤ H) :
    (b.width.toNat * b.height.toNat + 7) / 8 ≤ (W * H + 7) / 8 := by
  have : b.width.toNat * b.height.toNat ≤ W * H :=
    Nat.mul_le_mul (by omega) (by omega)
  omega

theorem inflateBlocks_deflateBlocks (fuel : Nat) :
    ∀ (data acc : List Nat) (fuel' : Nat), data.length ≤ 65535 * fuel → fuel < fuel' →
      inflateBlocks fuel' (deflateBlocks fuel data) acc = some (acc ++ data) := by
  induction fuel with
  | zero =>
    intro data acc fuel' hlen hf
    have hnil : data = [] := List.length_eq_zero.mp (by omega)
    subst hnil
    obtain ⟨f, rfl⟩ : ∃ f, fuel' = f + 1 := ⟨fuel' - 1, by omega⟩
    simp [deflateBlocks, inflateBlocks]
  | succ fuel ih =>
    intro data acc fuel' hlen hf
    obtain ⟨f, rfl⟩ : ∃ f, fuel' = f + 1 := ⟨fuel' - 1, by omega⟩
    unfold deflateBlocks
    by_cases hsmall : data.length ≤ 65535
    · rw [if_pos hsmall]
      simp only [putU16, List.cons_append, List.nil_append, inflateBlocks]
      have e1 : data.length % 256 + 256 * (data.length / 256 % 256) = data.length := by omega
      have e2 : (65535 - data.length) % 256 + 256 * ((65535 - data.length) / 256 % 256) =
          65535 - data.length := by omega
      simp [e1, e2]
    · rw [if_neg hsmall]
      have hl : (List.take 65535 data).length = 65535 := by
        rw [List.length_take]; omega
      have hrec := ih (data.drop 65535) (acc ++ data.take 65535) f
        (by rw [List.length_drop]; omega) (by omega)
      simp only [List.cons_append, List.nil_append, inflateBlocks]
      have hd : List.drop 65535 (List.take 65535 data ++ deflateBlocks fuel (List.drop 65535 data))
          = deflateBlocks fuel (List.drop 65535 data) := List.drop_left' hl
      have ht : List.take 65535 (List.take 65535 data ++ deflateBlocks fuel (List.drop 65535 data))
          = List.take 65535 data := List.take_left' hl
      simp only [List.append_assoc] at hrec
      simp [hd, ht, hrec, hl]

theorem deflateBlocks_length_gt (fuel : Nat) :
    ∀ data : List Nat, data.length ≤ 65535 * fuel →
      data.length < (deflateBlocks fuel data).length := by
  induction fuel with
  | zero => intro data h; simp [deflateBlocks]; omega
  | succ n ih =>
    intro data h
    unfold deflateBlocks
    split_ifs with hs
    · simp [putU16]; omega
    · have := ih (data.drop 65535) (by rw [List.length_drop]; omega)
      simp only [List.cons_append, List.nil_append, List.length_cons, List.length_append,
        List.length_take, List.length_drop] at this ⊢
      omega

theorem storedFlate_roundtrip (p : List Nat) :
    decompressPlane storedFlate (compressPlane storedFlate p) = some p := by
  simp only [decompressPlane, compressPlane, storedFlate, inflateStored, deflateStored]
  have := inflateBlocks_deflateBlocks (p.length + 1) p []
    ((deflateBlocks (p.length + 1) p).length + 1) (by omega)
  simp only [List.nil_append] at this
  apply this
  have := deflateBlocks_length_gt (p.length + 1) p (by omega)
  omega

theorem deflateBlocks_ne_nil (fuel : Nat) (data : List Nat) : deflateBlocks fuel data ≠ [] := by
  cases fuel with
  | zero => simp [deflateBlocks]
  | succ n => unfold deflateBlocks; split_ifs <;> simp

theorem deflateBlocks_length_le (fuel : Nat) :
    ∀ data : List Nat, (deflateBlocks fuel data).length ≤ data.length + 5 * (fuel + 1) := by
  induction fuel with
  | zero => intro data; simp [deflateBlocks]
  | succ n ih =>
    intro data
    unfold deflateBlocks
    split_ifs with h
    · simp [putU16]; omega
    · have := ih (data.drop 65535)
      simp only [List.cons_append, List.nil_append, List.length_cons, List.length_append,
        List.length_take, List.length_drop] at this ⊢
      omega

theorem storedFlate_nonempty (p : List Nat) : compressPlane storedFlate p ≠ [] :=
  deflateBlocks_ne_nil _ _

theorem storedFlate_length (p : List Nat) (hp : p.length ≤ 524288) :
    (compressPlane storedFlate p).length < 4294967296 := by
  have := deflateBlocks_length_le (p.length + 1) p
  simp only [compressPlane, storedFlate, deflateStored]
  omega

theorem canvasOf_wf (w h : Nat) (f : Nat → Nat) : (canvasOf w h f).WF := by
  simp [Canvas.WF, canvasOf]

theorem canvasOf_chan (w h : Nat) (f : Nat → Nat) {x y k : Nat} (hx : x < w) (hy : y < h)
    (hk : k < 4) : (canvasOf w h f).chan x y k = f (y * (4 * w) + x * 4 + k) := by
  have hlt : y * (4 * w) + x * 4 + k < 4 * w * h := pixIdx_lt hx hy hk
  simp [Canvas.chan, canvasOf, Canvas.stride, List.getD_eq_getElem?_getD,
    List.getElem?_range hlt, hlt]

theorem chan_eq_getD (c : Canvas) (x y k : Nat) :
    c.chan x y k = c.pix.getD (y * c.stride + x * 4 + k) 0 := rfl

/-- What the loader leaves is the original buffer when the original is
already thresholded and opaque. -/
theorem reloadedChan_fixed (c : Canvas) (b : Bounds) (hb : contentBounds c = some b)
    (hbin : ∀ x y k, x < c.canvasWidth → y < c.canvasHeight → k < 3 →
      c.chan x y k = 0 ∨ c.chan x y k = 255)
    (halpha : ∀ x y, x < c.canvasWidth → y < c.canvasHeight → c.chan x y 3 = 255)
    {X Y ch : Nat} (hX : X < c.canvasWidth) (hY : Y < c.canvasHeight) (hch : ch < 4) :
    reloadedChan c b X Y ch = c.chan X Y ch := by
  obtain ⟨-, -, -, -, -, -, hcover⟩ := contentBounds_facts c b hb
  unfold reloadedChan
  by_cases hin : b.minX ≤ X ∧ (X : Int) < b.minX + b.width ∧ b.minY ≤ Y ∧
      (Y : Int) < b.minY + b.height
  · rw [if_pos hin]
    by_cases h3 : ch = 3
    · rw [if_pos h3, h3, halpha X Y hX hY]
    · rw [if_neg h3]
      unfold binarized
      rcases hbin X Y ch hX hY (by omega) with h | h <;> rw [h] <;> simp
  · rw [if_neg hin]
    have hwhite : c.chan X Y 0 = 255 ∧ c.chan X Y 1 = 255 ∧ c.chan X Y 2 = 255 := by
      by_contra hne
      exact hin (hcover X Y ⟨hX, hY, hne⟩)
    have : ch = 0 ∨ ch = 1 ∨ ch = 2 ∨ ch = 3 := by omega
    rcases this with rfl | rfl | rfl | rfl
    · exact hwhite.1.symm
    · exact hwhite.2.1.symm
    · exact hwhite.2.2.symm
    · exact (halpha X Y hX hY).symm

/-- C1. Round trip of export then load: for a canvas of width and height in
[64, 2048] whose R, G, B values are all 0 or 255, whose alpha is 255 and
which has a non-white pixel, `exportImage` with an empty password builds a
container, and `loadImageData` on that container (on any canvas of the same
size) returns `true` and leaves exactly the original pixel buffer.  The
compressor enters through its round trip `decompressPlane (compressPlane p)
= p` and through two facts about its output size: a compressed plane is not
empty and is shorter than 2^32 bytes. -/
theorem export_load_roundtrip (fl : Flate) (cr : CryptoLib) (rnd : Option (Nat → Nat))
    (c c' : Canvas)
    (hW : 64 ≤ c.canvasWidth ∧ c.canvasWidth ≤ 2048)
    (hH : 64 ≤ c.canvasHeight ∧ c.canvasHeight ≤ 2048)
    (hwf : c.WF) (hwf' : c'.WF)
    (hsameW : c'.canvasWidth = c.canvasWidth) (hsameH : c'.canvasHeight = c.canvasHeight)
    (hbin : ∀ x y k, x < c.canvasWidth → y < c.canvasHeight → k < 3 →
      c.chan x y k = 0 ∨ c.chan x y k = 255)
    (halpha : ∀ x y, x < c.canvasWidth → y < c.canvasHeight → c.chan x y 3 = 255)
    (hink : ∃ x y, c.IsInk x y)
    (hrt : ∀ p, decompressPlane fl (compressPlane fl p) = some p)
    (hne : ∀ p, compressPlane fl p ≠ [])
    (hlt : ∀ p, p.length ≤ 524288 → (compressPlane fl p).length < 4294967296) :
    ∃ data, exportData fl cr rnd c "" = some data ∧
      loadImageData fl c' data = .returned true c.pix := by
  obtain ⟨b, hb⟩ := contentBounds_some_of_ink c hink
  obtain ⟨f1, f2, f3, f4, f5, f6, -⟩ := contentBounds_facts c b hb
  have hsize := plane_size_le b 2048 2048 (by omega) (by omega)
  obtain ⟨pix, hload, hlen, hpix⟩ := load_export fl c c' b hb (by omega) (by omega) hwf' hrt hne
    (fun p hp => hlt p (by rw [hp]; exact hsize))
  refine ⟨_, exportData_empty_password fl cr rnd c b hb, ?_⟩
  rw [hload]
  congr 1
  have hwf0 : c.pix.length = 4 * c.canvasWidth * c.canvasHeight := hwf
  have hwf1 : c'.pix.length = 4 * c.canvasWidth * c.canvasHeight := by
    rw [← hsameW, ← hsameH]; exact hwf'
  apply pix_ext (hlen.trans hwf1) hwf0
  intro X Y ch hX hY hch
  have := hpix X Y ch (by omega) (by omega) hch
  simp only [Canvas.stride, hsameW] at this
  rw [this, reloadedChan_fixed c b hb hbin halpha hX hY hch]
  rfl

theorem blackCanvas_chan {x y k : Nat} (hx : x < 64) (hy : y < 64) (hk : k < 4) :
    blackCanvas.chan x y k = if k = 3 then 255 else 0 := by
  unfold blackCanvas
  rw [canvasOf_chan 64 64 _ hx hy hk]
  have : (y * (4 * 64) + x * 4 + k) % 4 = 3 ↔ k = 3 := by omega
  simp only [this]

theorem blackCanvas_ink : blackCanvas.IsInk 0 0 := by
  refine ⟨by decide, by decide, ?_⟩
  rw [blackCanvas_chan (by decide) (by decide) (by decide)]
  simp

/-- Witness for C1: the black 64x64 canvas with the stored-block codec. -/
theorem export_load_roundtrip_witness :
    ∃ data, exportData storedFlate demoCrypto none blackCanvas "" = some data ∧
      loadImageData storedFlate blackCanvas data = .returned true blackCanvas.pix :=
  export_load_roundtrip storedFlate demoCrypto none blackCanvas blackCanvas
    (by decide) (by decide) (canvasOf_wf _ _ _) (canvasOf_wf _ _ _) rfl rfl
    (fun x y k hx hy hk => by
      rw [blackCanvas_chan hx hy (by omega)]
      have : k ≠ 3 := by omega
      simp [this])
    (fun x y hx hy => by rw [blackCanvas_chan hx hy (by decide)]; simp)
    ⟨0, 0, blackCanvas_ink⟩ storedFlate_roundtrip storedFlate_nonempty storedFlate_length

theorem range_one : List.range 1 = [0] := rfl

theorem canvasOf_length (w h : Nat) (f : Nat → Nat) :
    (canvasOf w h f).pix.length = 4 * w * h := canvasOf_wf w h f

/-- A container whose B segment declares more bytes than remain is
loaded: the reader pads the segment with zeros and the stored-block
reader stops at the end of the final block. -/
theorem load_short_segment (c : Canvas) (hW : 0 < c.canvasWidth) (hH : 0 < c.canvasHeight)
    (hlen : 3 < c.pix.length) :
    ∃ pix, loadImageData storedFlate c shortSegmentContainer = .returned true pix := by
  simp [shortSegmentContainer, loadImageData, readU16, readU32, readSeg, decompressPlane,
    storedFlate, inflateStored, inflateBlocks, loop2, reconPixel, chanVal, hW, hH,
    Canvas.stride, range_one, hlen]

/-- C2 (the code departs from the claim). On a well-formed container for a
1x1 image whose planes decompress to zero bytes, `loadImageData` indexes
`rPlane[0]` out of range: the call ends in a run-time panic instead of
returning, whatever the canvas. -/
theorem load_aborts_on_short_plane (c : Canvas) :
    loadImageData storedFlate c emptyPlanesContainer = .aborted := by
  rfl

/-- C3 (the code departs from the claim). The B segment of
`shortSegmentContainer` declares 9 bytes and only 6 remain after the
length field, yet `loadImageData` returns `true` on the 64x64 canvas. -/
theorem load_accepts_truncated_segment :
    (readU32 (shortSegmentContainer.drop 28)).map
        (fun r => (r.1, r.2.length)) = some (9, 6) ∧
      ∃ pix, loadImageData storedFlate whiteCanvas shortSegmentContainer =
        .returned true pix :=
  ⟨by decide, load_short_segment whiteCanvas (by decide) (by decide)
    (by rw [whiteCanvas, canvasOf_length]; decide)⟩

theorem scan_congr (c d : Canvas) (hW : d.canvasWidth = c.canvasWidth)
    (hH : d.canvasHeight = c.canvasHeight)
    (h : ∀ x y, x < c.canvasWidth → y < c.canvasHeight → nonWhite d x y = nonWhite c x y) :
    scan d = scan c := by
  unfold scan
  rw [hW, hH]
  apply loop2_congr
  intro y x s hy hx
  simp only [scanPixel, h x y hx hy]

theorem contentBounds_congr (c d : Canvas) (hW : d.canvasWidth = c.canvasWidth)
    (hH : d.canvasHeight = c.canvasHeight)
    (h : ∀ x y, x < c.canvasWidth → y < c.canvasHeight → nonWhite d x y = nonWhite c x y) :
    contentBounds d = contentBounds c := by
  unfold contentBounds
  rw [scan_congr c d hW hH h, hW, hH]

theorem packPixel_congr (c d : Canvas) (hW : d.canvasWidth = c.canvasWidth)
    (minX minY y x : Nat) (p : Planes)
    (h : ∀ ch, ch < 3 →
      (d.chan (minX + x) (minY + y) ch > 128 ↔ c.chan (minX + x) (minY + y) ch > 128)) :
    packPixel d minX minY y x p = packPixel c minX minY y x p := by
  have h0 := h 0 (by omega)
  have h1 := h 1 (by omega)
  have h2 := h 2 (by omega)
  simp only [Canvas.chan, Canvas.stride, hW, Nat.add_zero] at h0 h1 h2
  simp only [packPixel, Canvas.stride, hW, Nat.add_assoc] at h0 h1 h2 ⊢
  simp only [h0, h1, h2]

theorem packPlanes_congr (c d : Canvas) (b : Bounds) (hW : d.canvasWidth = c.canvasWidth)
    (h : ∀ x y ch, x < b.width.toNat → y < b.height.toNat → ch < 3 →
      (d.chan (b.minX.toNat + x) (b.minY.toNat + y) ch > 128 ↔
        c.chan (b.minX.toNat + x) (b.minY.toNat + y) ch > 128)) :
    packPlanes d b = packPlanes c b := by
  unfold packPlanes
  apply loop2_congr
  intro y x s hy hx
  exact packPixel_congr c d hW _ _ y x s (fun ch hch => h x y ch hx hy hch)

theorem binarized_gt (v : Nat) : binarized v > 128 ↔ v > 128 := by
  by_cases h : v > 128 <;> simp [binarized, h]

theorem binarized_eq_255 (v : Nat) : binarized v = 255 ↔ v > 128 := by
  by_cases h : v > 128 <;> simp [binarized, h]

theorem exportData_none_of_blank (fl : Flate) (cr : CryptoLib) (rnd : Option (Nat → Nat))
    (c : Canvas) (password : String) (h : ¬ ∃ x y, c.IsInk x y) :
    exportData fl cr rnd c password = none := by
  have hc : (scan c).hasContent = false := by
    cases hs : (scan c).hasContent
    · rfl
    · exact absurd ((scan_hasContent_iff c).mp hs) h
  simp [exportData, (contentBounds_none_iff c).mpr hc]

/-- Channels of the canvas that holds the buffer a load has left. -/
theorem reloaded_canvas_chan (c' : Canvas) (D : List Nat) (f : Nat → Nat → Nat → Nat)
    (hpix : ∀ X Y ch, X < c'.canvasWidth → Y < c'.canvasHeight → ch < 4 →
      D.getD (Y * c'.stride + X * 4 + ch) 0 = f X Y ch)
    {X Y ch : Nat} (hX : X < c'.canvasWidth) (hY : Y < c'.canvasHeight) (hch : ch < 4) :
    Canvas.chan { canvasWidth := c'.canvasWidth, canvasHeight := c'.canvasHeight, pix := D }
      X Y ch = f X Y ch :=
  hpix X Y ch hX hY hch

theorem reloadedChan_inside (c : Canvas) (b : Bounds) {X Y ch : Nat}
    (hin : b.minX ≤ X ∧ (X : Int) < b.minX + b.width ∧ b.minY ≤ Y ∧
      (Y : Int) < b.minY + b.height) (hch : ch < 3) :
    reloadedChan c b X Y ch = binarized (c.chan X Y ch) := by
  unfold reloadedChan
  rw [if_pos hin, if_neg (by omega)]

theorem reloadedChan_outside (c : Canvas) (b : Bounds) {X Y ch : Nat}
    (hout : ¬ (b.minX ≤ X ∧ (X : Int) < b.minX + b.width ∧ b.minY ≤ Y ∧
      (Y : Int) < b.minY + b.height)) :
    reloadedChan c b X Y ch = 255 := by
  unfold reloadedChan
  rw [if_neg hout]

/-- C4 (amended). Re-encode idempotence for canvases whose every non-white
pixel has a channel at or below the threshold: for a canvas of width and
height in [64, 2048] with content in which each pixel that differs from
white has R, G or B at most 128, the container that `exportImage` (empty
password) builds from the buffer left by loading the exported container is
the exported container itself, byte for byte.  The compressor enters
through its round trip and the size of its output. -/
theorem reencode_idempotent (fl : Flate) (cr : CryptoLib) (rnd : Option (Nat → Nat))
    (c c' : Canvas)
    (hW : 64 ≤ c.canvasWidth ∧ c.canvasWidth ≤ 2048)
    (hH : 64 ≤ c.canvasHeight ∧ c.canvasHeight ≤ 2048)
    (hwf' : c'.WF)
    (hsameW : c'.canvasWidth = c.canvasWidth) (hsameH : c'.canvasHeight = c.canvasHeight)
    (hink : ∃ x y, c.IsInk x y)
    (hdark : ∀ x y, c.IsInk x y →
      c.chan x y 0 ≤ 128 ∨ c.chan x y 1 ≤ 128 ∨ c.chan x y 2 ≤ 128)
    (hrt : ∀ p, decompressPlane fl (compressPlane fl p) = some p)
    (hne : ∀ p, compressPlane fl p ≠ [])
    (hlt : ∀ p, p.length ≤ 524288 → (compressPlane fl p).length < 4294967296) :
    ∃ data D, exportData fl cr rnd c "" = some data ∧
      loadImageData fl c' data = .returned true D ∧
      exportData fl cr rnd
        { canvasWidth := c'.canvasWidth, canvasHeight := c'.canvasHeight, pix := D } ""
        = some data := by
  obtain ⟨b, hb⟩ := contentBounds_some_of_ink c hink
  obtain ⟨f1, f2, f3, f4, f5, f6, hcover⟩ := contentBounds_facts c b hb
  have hsize := plane_size_le b 2048 2048 (by omega) (by omega)
  obtain ⟨D, hload, -, hpix⟩ := load_export fl c c' b hb (by omega) (by omega) hwf' hrt hne
    (fun p hp => hlt p (by rw [hp]; exact hsize))
  refine ⟨_, D, exportData_empty_password fl cr rnd c b hb, hload, ?_⟩
  have hchan : ∀ {X Y ch : Nat}, X < c.canvasWidth → Y < c.canvasHeight → ch < 4 →
      Canvas.chan { canvasWidth := c'.canvasWidth, canvasHeight := c'.canvasHeight, pix := D }
        X Y ch = reloadedChan c b X Y ch := fun hX hY hch =>
    reloaded_canvas_chan c' D _ hpix (by omega) (by omega) hch
  -- the reloaded canvas has ink exactly where the original has
  have hnw : ∀ x y, x < c.canvasWidth → y < c.canvasHeight →
      nonWhite { canvasWidth := c'.canvasWidth, canvasHeight := c'.canvasHeight, pix := D } x y
        = nonWhite c x y := by
    intro x y hx hy
    rw [Bool.eq_iff_iff, nonWhite_iff, nonWhite_iff, hchan hx hy (by omega),
      hchan hx hy (by omega), hchan hx hy (by omega)]
    by_cases hin : b.minX ≤ x ∧ (x : Int) < b.minX + b.width ∧ b.minY ≤ y ∧
        (y : Int) < b.minY + b.height
    · rw [reloadedChan_inside c b hin (by omega), reloadedChan_inside c b hin (by omega),
        reloadedChan_inside c b hin (by omega)]
      simp only [binarized_eq_255]
      constructor
      · intro h1 h2
        apply h1
        omega
      · intro h1 h2
        have := hdark x y ⟨hx, hy, h1⟩
        omega
    · rw [reloadedChan_outside c b hin, reloadedChan_outside c b hin,
        reloadedChan_outside c b hin]
      constructor
      · intro h1; exact absurd ⟨rfl, rfl, rfl⟩ h1
      · intro h1; exact absurd (hcover x y ⟨hx, hy, h1⟩) hin
  have hb' : contentBounds
      { canvasWidth := c'.canvasWidth, canvasHeight := c'.canvasHeight, pix := D } = some b := by
    rw [contentBounds_congr c ⟨c'.canvasWidth, c'.canvasHeight, D⟩ hsameW hsameH hnw, hb]
  -- and the same thresholded channels inside the rectangle
  have hpl : packPlanes
      { canvasWidth := c'.canvasWidth, canvasHeight := c'.canvasHeight, pix := D } b
        = packPlanes c b := by
    apply packPlanes_congr c ⟨c'.canvasWidth, c'.canvasHeight, D⟩ b hsameW
    intro x y ch hx hy hch
    have hX : b.minX.toNat + x < c.canvasWidth := by omega
    have hY : b.minY.toNat + y < c.canvasHeight := by omega
    rw [hchan hX hY (by omega)]
    have hin : b.minX ≤ ((b.minX.toNat + x : Nat) : Int) ∧
        ((b.minX.toNat + x : Nat) : Int) < b.minX + b.width ∧
        b.minY ≤ ((b.minY.toNat + y : Nat) : Int) ∧
        ((b.minY.toNat + y : Nat) : Int) < b.minY + b.height := by omega
    rw [reloadedChan_inside c b hin hch, binarized_gt]
  rw [exportData_empty_password fl cr rnd _ b hb', hpl]

/-- Witness for the amended C4: the black 64x64 canvas. -/
theorem reencode_idempotent_witness :
    ∃ data D, exportData storedFlate demoCrypto none blackCanvas "" = some data ∧
      loadImageData storedFlate blackCanvas data = .returned true D ∧
      exportData storedFlate demoCrypto none
        { canvasWidth := blackCanvas.canvasWidth, canvasHeight := blackCanvas.canvasHeight,
          pix := D } "" = some data :=
  reencode_idempotent storedFlate demoCrypto none blackCanvas blackCanvas
    (by decide) (by decide) (canvasOf_wf _ _ _) rfl rfl ⟨0, 0, blackCanvas_ink⟩
    (fun x y h => by
      rw [blackCanvas_chan h.1 h.2.1 (by decide)]
      simp)
    storedFlate_roundtrip storedFlate_nonempty storedFlate_length

theorem faintCanvas_chan_gt {x y k : Nat} (hx : x < 64) (hy : y < 64) (hk : k < 4) :
    faintCanvas.chan x y k > 128 := by
  unfold faintCanvas
  rw [canvasOf_chan 64 64 _ hx hy hk]
  split_ifs <;> decide

theorem faintCanvas_ink : faintCanvas.IsInk 0 0 := by
  refine ⟨by decide, by decide, ?_⟩
  unfold faintCanvas
  rw [canvasOf_chan 64 64 _ (by decide) (by decide) (by decide)]
  simp

/-- C4 (counterexample). On the 64x64 white canvas with R = 200 at the
top-left pixel, with a compressor whose round trip holds: the canvas has
content and exports to a container; loading that container leaves a
buffer from which `exportImage` builds no container at all (the mark has
been thresholded to white), so the re-encoding is not byte-identical. -/
theorem reencode_counterexample :
    (∀ p, decompressPlane storedFlate (compressPlane storedFlate p) = some p) ∧
    faintCanvas.IsInk 0 0 ∧
    ∃ data D, exportData storedFlate demoCrypto none faintCanvas "" = some data ∧
      loadImageData storedFlate faintCanvas data = .returned true D ∧
      exportData storedFlate demoCrypto none
        { canvasWidth := faintCanvas.canvasWidth, canvasHeight := faintCanvas.canvasHeight,
          pix := D } "" = none := by
  refine ⟨storedFlate_roundtrip, faintCanvas_ink, ?_⟩
  obtain ⟨b, hb⟩ := contentBounds_some_of_ink faintCanvas ⟨0, 0, faintCanvas_ink⟩
  obtain ⟨f1, f2, f3, f4, f5, f6, -⟩ := contentBounds_facts faintCanvas b hb
  have hw64 : faintCanvas.canvasWidth = 64 := rfl
  have hh64 : faintCanvas.canvasHeight = 64 := rfl
  have hsize := plane_size_le b 2048 2048 (by omega) (by omega)
  obtain ⟨D, hload, -, hpix⟩ := load_export storedFlate faintCanvas faintCanvas b hb
    (by decide) (by decide) (canvasOf_wf _ _ _) storedFlate_roundtrip storedFlate_nonempty
    (fun p hp => storedFlate_length p (by rw [hp]; exact hsize))
  refine ⟨_, D, exportData_empty_password storedFlate demoCrypto none faintCanvas b hb,
    hload, ?_⟩
  apply exportData_none_of_blank
  rintro ⟨x, y, hx, hy, hne⟩
  apply hne
  have hx' : x < 64 := hx
  have hy' : y < 64 := hy
  have hval : ∀ ch, ch < 3 → reloadedChan faintCanvas b x y ch = 255 := by
    intro ch hch
    by_cases hin : b.minX ≤ x ∧ (x : Int) < b.minX + b.width ∧ b.minY ≤ y ∧
        (y : Int) < b.minY + b.height
    · rw [reloadedChan_inside _ b hin hch, binarized_eq_255]
      exact faintCanvas_chan_gt hx' hy' (by omega)
    · exact reloadedChan_outside _ b hin
  rw [reloaded_canvas_chan faintCanvas D _ hpix hx hy (by omega),
    reloaded_canvas_chan faintCanvas D _ hpix hx hy (by omega),
    reloaded_canvas_chan faintCanvas D _ hpix hx hy (by omega)]
  exact ⟨hval 0 (by omega), hval 1 (by omega), hval 2 (by omega)⟩

theorem packPlanes_chanPlane_inv (c : Canvas) (minX minY w h ch : Nat) (hch : ch < 3) :
    PlaneInv ((w * h + 7) / 8) (h * w) (regionChan c minX minY w ch)
      ((packPlanes c { minX := minX, minY := minY, width := w, height := h }).chanPlane ch) := by
  have inv := packPlanes_inv c { minX := minX, minY := minY, width := w, height := h }
    (Int.ofNat_nonneg w) (Int.ofNat_nonneg h)
  simp only [Int.toNat_ofNat] at inv
  have : ch = 0 ∨ ch = 1 ∨ ch = 2 := by omega
  rcases this with rfl | rfl | rfl
  · exact inv.r
  · exact inv.g
  · exact inv.b

/-- C5. Bit-plane packing: for a rectangle of width `w` and height `h` at
`(minX, minY)` and each channel `ch` of R, G, B, the plane that
`exportImage` builds has exactly ceil(w*h/8) bytes; the bit of pixel
`(x, y)`, at row-major index `i = y*w + x` (bit `7 - i mod 8` of byte
`i div 8`), is 1 exactly when the channel value is strictly above 128;
every bit at an index `>= w*h` is 0 and every byte is below 256.  The 4x4
region with R = 200 at the top-left pixel and 0 elsewhere packs its R plane
to the bytes `0b10000000, 0`. -/
theorem bitplane_packing (c : Canvas) (minX minY w h ch x y : Nat)
    (hch : ch < 3) (hx : x < w) (hy : y < h) :
    let plane :=
      (packPlanes c { minX := minX, minY := minY, width := w, height := h }).chanPlane ch
    (w * h ≤ 8 * plane.length ∧ 8 * plane.length < w * h + 8) ∧
    planeBit plane (y * w + x) = decide (c.chan (minX + x) (minY + y) ch > 128) ∧
    (∀ i, w * h ≤ i → planeBit plane i = false) ∧
    (∀ j, plane.getD j 0 < 256) ∧
    (packPlanes markCanvas { minX := 0, minY := 0, width := 4, height := 4 }).rPlane
      = [128, 0] := by
  intro plane
  have inv : PlaneInv ((w * h + 7) / 8) (h * w) (regionChan c minX minY w ch) plane :=
    packPlanes_chanPlane_inv c minX minY w h ch hch
  have hcomm : h * w = w * h := Nat.mul_comm h w
  have hlen : plane.length = (w * h + 7) / 8 := inv.1
  refine ⟨by omega, ?_, ?_, ?_, by decide⟩
  · have hk : y * w + x < h * w := (flat_index_lt hx).mpr hy
    rw [planeBit_of_inv inv (by omega), regionChan_flat c minX minY w ch y hx]
    simp [hk]
  · intro i hi
    by_cases hbig : 8 * plane.length ≤ i
    · exact planeBit_high hbig
    · rw [planeBit_of_inv inv (by omega)]
      have : ¬ i < h * w := by omega
      simp [this]
  · intro j
    by_cases hj : j < (w * h + 7) / 8
    · exact planeInv_byte_lt inv hj
    · have : plane.length ≤ j := by omega
      simp [List.getD_eq_getElem?_getD, List.getElem?_eq_none this]

/-- Witness for C5: at the first pixel of `thresholdCanvas` the value 129
sets the R bit and the value 128 leaves the G bit clear. -/
theorem bitplane_packing_witness :
    planeBit ((packPlanes thresholdCanvas
        { minX := 0, minY := 0, width := 4, height := 4 }).chanPlane 0) 0 = true ∧
      planeBit ((packPlanes thresholdCanvas
        { minX := 0, minY := 0, width := 4, height := 4 }).chanPlane 1) 0 = false := by
  have hr := (bitplane_packing thresholdCanvas 0 0 4 4 0 0 0 (by decide) (by decide)
    (by decide)).2.1
  have hg := (bitplane_packing thresholdCanvas 0 0 4 4 1 0 0 (by decide) (by decide)
    (by decide)).2.1
  have cr : thresholdCanvas.chan 0 0 0 = 129 := by decide
  have cg : thresholdCanvas.chan 0 0 1 = 128 := by decide
  simp only [Nat.zero_mul, Nat.add_zero, cr, cg] at hr hg
  exact ⟨by simpa using hr, by simpa using hg⟩

/-- C6. Content bounding box: when the canvas has a pixel that differs from
white, with `xmin, xmax, ymin, ymax` the least and greatest coordinates of
such pixels, the rectangle `exportImage` computes and encodes has
`offsetX = max(0, xmin-2)`, `offsetY = max(0, ymin-2)`,
`width = min(W-1, xmax+2) - offsetX + 1` and
`height = min(H-1, ymax+2) - offsetY + 1`; it lies inside the canvas and
contains every non-white pixel. -/
theorem content_bounding_box (fl : Flate) (cr : CryptoLib) (rnd : Option (Nat → Nat))
    (c : Canvas) (xmin xmax ymin ymax : Nat)
    (hxmin : (∃ y, c.IsInk xmin y) ∧ ∀ x y, c.IsInk x y → xmin ≤ x)
    (hxmax : (∃ y, c.IsInk xmax y) ∧ ∀ x y, c.IsInk x y → x ≤ xmax)
    (hymin : (∃ x, c.IsInk x ymin) ∧ ∀ x y, c.IsInk x y → ymin ≤ y)
    (hymax : (∃ x, c.IsInk x ymax) ∧ ∀ x y, c.IsInk x y → y ≤ ymax) :
    ∃ b, contentBounds c = some b ∧
      exportData fl cr rnd c "" = some (container fl b (packPlanes c b)) ∧
      b.minX = Max.max 0 ((xmin : Int) - 2) ∧
      b.minY = Max.max 0 ((ymin : Int) - 2) ∧
      b.width = Min.min ((c.canvasWidth : Int) - 1) ((xmax : Int) + 2) - b.minX + 1 ∧
      b.height = Min.min ((c.canvasHeight : Int) - 1) ((ymax : Int) + 2) - b.minY + 1 ∧
      0 ≤ b.minX ∧ 0 ≤ b.minY ∧
      b.minX + b.width ≤ c.canvasWidth ∧ b.minY + b.height ≤ c.canvasHeight ∧
      ∀ x y, c.IsInk x y →
        b.minX ≤ x ∧ (x : Int) < b.minX + b.width ∧
          b.minY ≤ y ∧ (y : Int) < b.minY + b.height := by
  obtain ⟨hc, e1, e2, e3, e4⟩ := scan_extremes c xmin xmax ymin ymax hxmin hxmax hymin hymax
  have hb := contentBounds_of_content c hc
  rw [e1, e2, e3, e4] at hb
  obtain ⟨f1, f2, -, -, f5, f6, f7⟩ := contentBounds_facts c _ hb
  exact ⟨_, hb, exportData_empty_password fl cr rnd c _ hb, rfl, rfl, rfl, rfl, f1, f2, f5, f6, f7⟩

theorem blackCanvas_isInk {x y : Nat} (hx : x < 64) (hy : y < 64) : blackCanvas.IsInk x y := by
  refine ⟨hx, hy, ?_⟩
  rw [blackCanvas_chan hx hy (by decide)]
  simp

/-- Witness for C6: the black 64x64 canvas, whose ink spans 0..63 both ways. -/
theorem content_bounding_box_witness :
    ∃ b, contentBounds blackCanvas = some b ∧
      exportData storedFlate demoCrypto none blackCanvas ""
        = some (container storedFlate b (packPlanes blackCanvas b)) ∧
      b.minX = Max.max 0 (((0 : Nat) : Int) - 2) ∧
      b.minY = Max.max 0 (((0 : Nat) : Int) - 2) ∧
      b.width = Min.min ((blackCanvas.canvasWidth : Int) - 1) (((63 : Nat) : Int) + 2)
        - b.minX + 1 ∧
      b.height = Min.min ((blackCanvas.canvasHeight : Int) - 1) (((63 : Nat) : Int) + 2)
        - b.minY + 1 ∧
      0 ≤ b.minX ∧ 0 ≤ b.minY ∧
      b.minX + b.width ≤ blackCanvas.canvasWidth ∧
      b.minY + b.height ≤ blackCanvas.canvasHeight ∧
      ∀ x y, blackCanvas.IsInk x y →
        b.minX ≤ x ∧ (x : Int) < b.minX + b.width ∧
          b.minY ≤ y ∧ (y : Int) < b.minY + b.height :=
  content_bounding_box storedFlate demoCrypto none blackCanvas 0 63 0 63
    ⟨⟨0, blackCanvas_isInk (by decide) (by decide)⟩, fun _ _ _ => Nat.zero_le _⟩
    ⟨⟨0, blackCanvas_isInk (by decide) (by decide)⟩, fun x _ h => by
      have : x < 64 := h.1
      omega⟩
    ⟨⟨0, blackCanvas_isInk (by decide) (by decide)⟩, fun _ _ _ => Nat.zero_le _⟩
    ⟨⟨0, blackCanvas_isInk (by decide) (by decide)⟩, fun _ y h => by
      have : y < 64 := h.2.1
      omega⟩

theorem le_two (v : Nat) : le 2 v = putU16 v := by
  simp [le, putU16]

theorem le_four (v : Nat) : le 4 v = putU32 v := by
  simp only [le, putU32]
  have e1 : v / 256 / 256 = v / 65536 := by omega
  have e2 : v / 256 / 256 / 256 = v / 16777216 := by omega
  rw [e2, e1]

theorem le_four_uint32 (n : Nat) : putU32 (uint32 n) = le 4 n := by
  rw [le_four]
  simp only [putU32, uint32]
  congr 1
  · omega
  · congr 1
    · omega
    · congr 1
      · omega
      · congr 1
        omega

/-- C7. Byte-exact container layout: for a canvas of width and height in
[64, 2048] with content and an empty password, the byte string
`exportImage` hands to the base64 encoder is
`LE16(offsetX) ++ LE16(offsetY) ++ LE16(width) ++ LE16(height) ++
LE32(len cR) ++ cR ++ LE32(len cG) ++ cG ++ LE32(len cB) ++ cB` with
`cR, cG, cB` the compressed R, G, B planes; the four header values are
non-negative and below 65536, so `uint16` leaves them unchanged. -/
theorem container_layout (fl : Flate) (cr : CryptoLib) (rnd : Option (Nat → Nat))
    (c : Canvas)
    (hW : 64 ≤ c.canvasWidth ∧ c.canvasWidth ≤ 2048)
    (hH : 64 ≤ c.canvasHeight ∧ c.canvasHeight ≤ 2048)
    (hink : ∃ x y, c.IsInk x y) :
    ∃ b, contentBounds c = some b ∧
      (0 ≤ b.minX ∧ b.minX < 65536) ∧ (0 ≤ b.minY ∧ b.minY < 65536) ∧
      (0 ≤ b.width ∧ b.width < 65536) ∧ (0 ≤ b.height ∧ b.height < 65536) ∧
      (uint16 b.minX : Int) = b.minX ∧ (uint16 b.minY : Int) = b.minY ∧
      (uint16 b.width : Int) = b.width ∧ (uint16 b.height : Int) = b.height ∧
      exportData fl cr rnd c "" = some
        (le 2 b.minX.toNat ++ le 2 b.minY.toNat ++ le 2 b.width.toNat ++ le 2 b.height.toNat ++
          le 4 (compressPlane fl (packPlanes c b).rPlane).length ++
            compressPlane fl (packPlanes c b).rPlane ++
          le 4 (compressPlane fl (packPlanes c b).gPlane).length ++
            compressPlane fl (packPlanes c b).gPlane ++
          le 4 (compressPlane fl (packPlanes c b).bPlane).length ++
            compressPlane fl (packPlanes c b).bPlane) := by
  obtain ⟨b, hb⟩ := contentBounds_some_of_ink c hink
  obtain ⟨f1, f2, f3, f4, f5, f6, -⟩ := contentBounds_facts c b hb
  have u1 := uint16_eq b.minX f1 (by omega)
  have u2 := uint16_eq b.minY f2 (by omega)
  have u3 := uint16_eq b.width (by omega) (by omega)
  have u4 := uint16_eq b.height (by omega) (by omega)
  refine ⟨b, hb, ⟨f1, by omega⟩, ⟨f2, by omega⟩, ⟨by omega, by omega⟩, ⟨by omega, by omega⟩,
    by omega, by omega, by omega, by omega, ?_⟩
  rw [exportData_empty_password fl cr rnd c b hb]
  simp only [container, u1, u2, u3, u4, le_two, le_four_uint32]

/-- Witness for C7: the black 64x64 canvas. -/
theorem container_layout_witness :
    ∃ b, contentBounds blackCanvas = some b ∧
      (0 ≤ b.minX ∧ b.minX < 65536) ∧ (0 ≤ b.minY ∧ b.minY < 65536) ∧
      (0 ≤ b.width ∧ b.width < 65536) ∧ (0 ≤ b.height ∧ b.height < 65536) ∧
      (uint16 b.minX : Int) = b.minX ∧ (uint16 b.minY : Int) = b.minY ∧
      (uint16 b.width : Int) = b.width ∧ (uint16 b.height : Int) = b.height ∧
      exportData storedFlate demoCrypto none blackCanvas "" = some
        (le 2 b.minX.toNat ++ le 2 b.minY.toNat ++ le 2 b.width.toNat ++ le 2 b.height.toNat ++
          le 4 (compressPlane storedFlate (packPlanes blackCanvas b).rPlane).length ++
            compressPlane storedFlate (packPlanes blackCanvas b).rPlane ++
          le 4 (compressPlane storedFlate (packPlanes blackCanvas b).gPlane).length ++
            compressPlane storedFlate (packPlanes blackCanvas b).gPlane ++
          le 4 (compressPlane storedFlate (packPlanes blackCanvas b).bPlane).length ++
            compressPlane storedFlate (packPlanes blackCanvas b).bPlane) :=
  container_layout storedFlate demoCrypto none blackCanvas (by decide) (by decide)
    ⟨0, 0, blackCanvas_ink⟩

theorem marker_eq : marker = strBytes "ENC:" := by decide

theorem isSealed_marker_append (rest : List Nat) : isSealed (marker ++ rest) = true := by
  simp [isSealed, marker]

theorem isSealed_container (fl : Flate) (b : Bounds) (p : Planes)
    (h0 : 0 ≤ b.minX) (h1 : b.minX < 2048) : isSealed (container fl b p) = false := by
  have hu := uint16_eq b.minX h0 (by omega)
  have hne : ¬ (List.take 4 (container fl b p) = marker) := by
    intro h
    simp only [container, putU16, marker, List.cons_append, List.nil_append, List.take_succ_cons,
      List.cons.injEq] at h
    obtain ⟨e0, e1, -⟩ := h
    rw [hu] at e0 e1
    omega
  simp [isSealed, hne]

theorem encrypt_some_ok (cr : CryptoLib) (src : Nat → Nat) (data : List Nat)
    (password : String) :
    encrypt cr (some src) data password =
      .ok ((List.range cr.nonceSize).map src ++
        cr.gcmSeal (cr.sum256 (strBytes password)).val
          ((List.range cr.nonceSize).map src) data) := by
  have hkey : (cr.sum256 (strBytes password)).val.length = 32 :=
    (cr.sum256 (strBytes password)).property
  simp [encrypt, newCipher, hkey]

theorem encrypt_none_error (cr : CryptoLib) (data : List Nat) (password : String) :
    ∃ e, encrypt cr none data password = .error e := by
  have hkey : (cr.sum256 (strBytes password)).val.length = 32 :=
    (cr.sum256 (strBytes password)).property
  exact ⟨"rand.Read", by simp [encrypt, newCipher, hkey]⟩

/-- C8. Marker integrity: for a canvas of width and height in [64, 2048]
with content and any password, the byte string `exportImage` hands to the
base64 encoder passes the loader's test (`len >= 4` and first four bytes
equal to "ENC:") exactly when the password is non-empty.  With an empty
password the export always produces its container, and the container is
not taken for a sealed payload.  With a non-empty password and a nonce
from `rand.Read`, the export always produces "ENC:" followed by the output
of `encrypt` on the container, which the loader takes for sealed, and
`exportImage` returns its base64 text; when `rand.Read` fails nothing is
encoded. -/
theorem marker_integrity (fl : Flate) (cr : CryptoLib) (rnd : Option (Nat → Nat))
    (c : Canvas) (password : String)
    (hW : 64 ≤ c.canvasWidth ∧ c.canvasWidth ≤ 2048)
    (_hH : 64 ≤ c.canvasHeight ∧ c.canvasHeight ≤ 2048)
    (hink : ∃ x y, c.IsInk x y) :
    (∀ data, exportData fl cr rnd c password = some data →
      (isSealed data = true ↔ password ≠ "")) ∧
    (∀ data, exportData fl cr rnd c password = some data →
      (data.take 4 = strBytes "ENC:" ↔ password ≠ "")) ∧
    (password = "" → ∃ b, contentBounds c = some b ∧
      exportData fl cr rnd c password = some (container fl b (packPlanes c b)) ∧
      exportImage fl cr rnd c password = encodeToString (container fl b (packPlanes c b)) ∧
      isSealed (container fl b (packPlanes c b)) = false) ∧
    (password ≠ "" → ∀ src, rnd = some src → ∃ b enc, contentBounds c = some b ∧
      encrypt cr (some src) (container fl b (packPlanes c b)) password = .ok enc ∧
      exportData fl cr rnd c password = some (strBytes "ENC:" ++ enc) ∧
      exportImage fl cr rnd c password = encodeToString (strBytes "ENC:" ++ enc) ∧
      isSealed (strBytes "ENC:" ++ enc) = true ∧
      (strBytes "ENC:" ++ enc).take 4 = strBytes "ENC:") ∧
    (password ≠ "" → rnd = none →
      exportData fl cr rnd c password = none ∧ exportImage fl cr rnd c password = "") := by
  obtain ⟨b, hb⟩ := contentBounds_some_of_ink c hink
  obtain ⟨f1, -, f3, -, f5, -, -⟩ := contentBounds_facts c b hb
  have hplain := isSealed_container fl b (packPlanes c b) f1 (by omega)
  have key : ∀ data, exportData fl cr rnd c password = some data →
      (isSealed data = true ↔ password ≠ "") ∧ 4 ≤ data.length := by
    intro data hdata
    by_cases hp : password = ""
    · subst hp
      rw [exportData_empty_password fl cr rnd c b hb] at hdata
      injection hdata with hdata
      subst hdata
      refine ⟨by simp [hplain], ?_⟩
      simp [container, putU16]
    · simp only [exportData, hb, ne_eq, hp, not_false_eq_true, if_true] at hdata
      cases he : encrypt cr rnd (container fl b (packPlanes c b)) password with
      | error e => rw [he] at hdata; exact absurd hdata (by simp)
      | ok enc =>
        rw [he] at hdata
        injection hdata with hdata
        subst hdata
        refine ⟨by simp [isSealed_marker_append, hp], ?_⟩
        simp [marker]
  refine ⟨fun data hdata => (key data hdata).1, ?_, ?_, ?_, ?_⟩
  · intro data hdata
    obtain ⟨hiff, hlen⟩ := key data hdata
    rw [← hiff, ← marker_eq]
    simp [isSealed, hlen]
  · intro hp
    subst hp
    have hd := exportData_empty_password fl cr rnd c b hb
    exact ⟨b, hb, hd, by simp only [exportImage, hd], hplain⟩
  · intro hp src hrnd
    subst hrnd
    have henc := encrypt_some_ok cr src (container fl b (packPlanes c b)) password
    have hd : exportData fl cr (some src) c password = some (strBytes "ENC:" ++
        ((List.range cr.nonceSize).map src ++
          cr.gcmSeal (cr.sum256 (strBytes password)).val
            ((List.range cr.nonceSize).map src) (container fl b (packPlanes c b)))) := by
      simp only [exportData, hb, ne_eq, hp, not_false_eq_true, if_true, henc, marker_eq]
    refine ⟨b, _, hb, henc, hd, by simp only [exportImage, hd], ?_, ?_⟩
    · rw [← marker_eq]; exact isSealed_marker_append _
    · rw [← marker_eq]; simp [marker]
  · intro hp hrnd
    subst hrnd
    obtain ⟨e, he⟩ := encrypt_none_error cr (container fl b (packPlanes c b)) password
    have hd : exportData fl cr none c password = none := by
      simp only [exportData, hb, ne_eq, hp, not_false_eq_true, if_true, he]
    exact ⟨hd, by simp only [exportImage, hd]⟩

/-- Witness for C8: the black 64x64 canvas exported with the password
"secret" and a nonce yields a payload that starts with "ENC:" and that the
loader takes for sealed; exported with no password it yields its
container, which the loader does not take for sealed. -/
theorem marker_integrity_witness :
    (∃ b enc, contentBounds blackCanvas = some b ∧
      encrypt demoCrypto (some (fun _ => 7))
        (container storedFlate b (packPlanes blackCanvas b)) "secret" = .ok enc ∧
      exportData storedFlate demoCrypto (some (fun _ => 7)) blackCanvas "secret"
        = some (strBytes "ENC:" ++ enc) ∧
      exportImage storedFlate demoCrypto (some (fun _ => 7)) blackCanvas "secret"
        = encodeToString (strBytes "ENC:" ++ enc) ∧
      isSealed (strBytes "ENC:" ++ enc) = true ∧
      (strBytes "ENC:" ++ enc).take 4 = strBytes "ENC:") ∧
    (∃ b, contentBounds blackCanvas = some b ∧
      exportData storedFlate demoCrypto (some (fun _ => 7)) blackCanvas ""
        = some (container storedFlate b (packPlanes blackCanvas b)) ∧
      exportImage storedFlate demoCrypto (some (fun _ => 7)) blackCanvas ""
        = encodeToString (container storedFlate b (packPlanes blackCanvas b)) ∧
      isSealed (container storedFlate b (packPlanes blackCanvas b)) = false) :=
  ⟨(marker_integrity storedFlate demoCrypto (some (fun _ => 7)) blackCanvas "secret"
      (by decide) (by decide) ⟨0, 0, blackCanvas_ink⟩).2.2.2.1 (by decide) _ rfl,
    (marker_integrity storedFlate demoCrypto (some (fun _ => 7)) blackCanvas ""
      (by decide) (by decide) ⟨0, 0, blackCanvas_ink⟩).2.2.1 rfl⟩

theorem encodeChars_ne_nil {data : List Nat} (h : data ≠ []) : encodeChars data ≠ [] := by
  match data, h with
  | [_], _ => simp [encodeChars]
  | [_, _], _ => simp [encodeChars]
  | _ :: _ :: _ :: _, _ => simp [encodeChars]

theorem encodeToString_ne_empty {data : List Nat} (h : data ≠ []) :
    encodeToString data ≠ "" := by
  intro he
  have : (encodeToString data).data = [] := by rw [he]
  exact encodeChars_ne_nil h this

theorem container_ne_nil (fl : Flate) (b : Bounds) (p : Planes) : container fl b p ≠ [] := by
  simp [container, putU16]

theorem whiteCanvas_chan {x y k : Nat} (hx : x < 64) (hy : y < 64) (hk : k < 4) :
    whiteCanvas.chan x y k = 255 := by
  unfold whiteCanvas
  rw [canvasOf_chan 64 64 _ hx hy hk]

/-- C9. No-content export: on a canvas whose every pixel has
R = G = B = 255, whatever the alpha and the password, `exportImage` returns
the empty string and builds no container; with an empty password, on a
canvas that has a pixel differing from white in R, G or B, `exportImage`
returns a non-empty string. -/
theorem no_content_export (fl : Flate) (cr : CryptoLib) (rnd : Option (Nat → Nat))
    (c : Canvas) (password : String) :
    ((∀ x y, x < c.canvasWidth → y < c.canvasHeight →
        c.chan x y 0 = 255 ∧ c.chan x y 1 = 255 ∧ c.chan x y 2 = 255) →
      exportImage fl cr rnd c password = "" ∧ exportData fl cr rnd c password = none) ∧
    ((∃ x y, x < c.canvasWidth ∧ y < c.canvasHeight ∧
        ¬ (c.chan x y 0 = 255 ∧ c.chan x y 1 = 255 ∧ c.chan x y 2 = 255)) →
      exportImage fl cr rnd c "" ≠ "") := by
  constructor
  · intro hwhite
    have hnone : exportData fl cr rnd c password = none := by
      apply exportData_none_of_blank
      rintro ⟨x, y, hx, hy, hne⟩
      exact hne (hwhite x y hx hy)
    exact ⟨by simp [exportImage, hnone], hnone⟩
  · rintro ⟨x, y, hx, hy, hne⟩
    obtain ⟨b, hb⟩ := contentBounds_some_of_ink c ⟨x, y, hx, hy, hne⟩
    simp only [exportImage, exportData_empty_password fl cr rnd c b hb]
    exact encodeToString_ne_empty (container_ne_nil fl b _)

/-- Witness for C9: the white 64x64 canvas under a password, the black
one without. -/
theorem no_content_export_witness :
    (exportImage storedFlate demoCrypto (some (fun _ => 7)) whiteCanvas "secret" = "" ∧
      exportData storedFlate demoCrypto (some (fun _ => 7)) whiteCanvas "secret" = none) ∧
    exportImage storedFlate demoCrypto none blackCanvas "" ≠ "" :=
  ⟨(no_content_export storedFlate demoCrypto (some (fun _ => 7)) whiteCanvas "secret").1
      (fun _ _ hx hy => ⟨whiteCanvas_chan hx hy (by decide), whiteCanvas_chan hx hy (by decide),
        whiteCanvas_chan hx hy (by decide)⟩),
    (no_content_export storedFlate demoCrypto none blackCanvas "").2 ⟨0, 0, blackCanvas_ink⟩⟩

theorem newCipher_ok {key : List Nat} (h : key.length = 32) : newCipher key = .ok () := by
  simp [newCipher, h]

/-- C10. Encryption round trip: for every byte string `m`, every non-empty
password `p` and every nonce `rand.Read` may deliver, `encrypt` succeeds
with `nonce ++ Seal(key, nonce, m)` for `key = SHA-256(p)`, and `decrypt`
of that output under `p` returns `m` with no error, given that `Open`
inverts `Seal` under the same 32-byte key and the same nonce of the
cipher's nonce size. -/
theorem encrypt_decrypt_roundtrip (cr : CryptoLib) (m : List Nat) (p : String)
    (src : Nat → Nat) (_hp : p ≠ "")
    (hopen : ∀ key nonce m, key.length = 32 → nonce.length = cr.nonceSize →
      cr.gcmOpen key nonce (cr.gcmSeal key nonce m) = some m) :
    encrypt cr (some src) m p =
      .ok ((List.range cr.nonceSize).map src ++
        cr.gcmSeal (cr.sum256 (strBytes p)).val ((List.range cr.nonceSize).map src) m) ∧
    ∃ ct, encrypt cr (some src) m p = .ok ct ∧ decrypt cr ct p = .ok m := by
  have hkey : (cr.sum256 (strBytes p)).val.length = 32 := (cr.sum256 (strBytes p)).property
  have hnl : ((List.range cr.nonceSize).map src).length = cr.nonceSize := by simp
  have henc : encrypt cr (some src) m p =
      .ok ((List.range cr.nonceSize).map src ++
        cr.gcmSeal (cr.sum256 (strBytes p)).val ((List.range cr.nonceSize).map src) m) := by
    simp [encrypt, newCipher_ok hkey]
  refine ⟨henc, _, henc, ?_⟩
  simp only [decrypt, newCipher_ok hkey]
  have hlen : ¬ ((List.range cr.nonceSize).map src ++
      cr.gcmSeal (cr.sum256 (strBytes p)).val ((List.range cr.nonceSize).map src) m).length
        < cr.nonceSize := by
    rw [List.length_append, hnl]; omega
  rw [if_neg hlen, List.take_left' hnl, List.drop_left' hnl, hopen _ _ _ hkey hnl]

/-- Witness for C10: the transparent AEAD, password "secret". -/
theorem encrypt_decrypt_roundtrip_witness :
    encrypt demoCrypto (some (fun _ => 7)) [1, 2, 3] "secret" =
      .ok ((List.range demoCrypto.nonceSize).map (fun _ => 7) ++
        demoCrypto.gcmSeal (demoCrypto.sum256 (strBytes "secret")).val
          ((List.range demoCrypto.nonceSize).map (fun _ => 7)) [1, 2, 3]) ∧
    ∃ ct, encrypt demoCrypto (some (fun _ => 7)) [1, 2, 3] "secret" = .ok ct ∧
      decrypt demoCrypto ct "secret" = .ok [1, 2, 3] :=
  encrypt_decrypt_roundtrip demoCrypto [1, 2, 3] "secret" (fun _ => 7) (by decide)
    (fun key nonce m _ _ => by simp [demoCrypto])

theorem copyPixel_length (oldData : List Nat) (oldWidth W H : Nat) (offsetX offsetY : Int)
    (y x : Nat) (pix : List Nat) (hlen : pix.length = 4 * W * H) :
    ∃ pix', copyPixel oldData oldWidth W H offsetX offsetY y x (some pix) = some pix' ∧
      pix'.length = 4 * W * H := by
  unfold copyPixel
  simp only
  split_ifs with hguard hsrc hdst
  · exact ⟨_, rfl, by simp [hlen]⟩
  · exfalso
    apply hdst
    obtain ⟨g1, g2, g3, g4⟩ := hguard
    obtain ⟨dx, hdx⟩ := Int.eq_ofNat_of_zero_le g1
    obtain ⟨dy, hdy⟩ := Int.eq_ofNat_of_zero_le g3
    rw [hdx] at g2
    rw [hdy] at g4
    have e : ((y : Int) + offsetY) * ((4 * W : Nat) : Int) + ((x : Int) + offsetX) * 4 =
        ((dy * (4 * W) + dx * 4 : Nat) : Int) := by
      rw [hdx, hdy]; push_cast; ring
    rw [e, Int.toNat_ofNat, hlen]
    exact pixIdx_lt (by omega) (by omega) (by omega)
  · exact ⟨_, rfl, hlen⟩
  · exact ⟨_, rfl, hlen⟩

theorem copy_loop_length (oldData : List Nat) (oldWidth W H : Nat) (offsetX offsetY : Int)
    (h w : Nat) :
    ∃ pix, loop2 h w (copyPixel oldData oldWidth W H offsetX offsetY)
        (some (List.replicate (4 * W * H) 255)) = some pix ∧ pix.length = 4 * W * H := by
  refine loop2_inv h w _ _ (fun _ (s : Option (List Nat)) => ∃ pix : List Nat, s = some pix ∧
    pix.length = 4 * W * H) ?_ ?_
  · exact ⟨_, rfl, by simp⟩
  · rintro y x s - - ⟨pix, rfl, hlen⟩
    exact copyPixel_length oldData oldWidth W H offsetX offsetY y x pix hlen

/-- C11. Invalid dimensions are rejected: for every pair of integers
`(newWidth, newHeight)`, `resizeCanvasJS` returns (it never panics); it
returns `false` exactly when `newWidth` or `newHeight` lies outside
[64, 2048], and then `canvasWidth`, `canvasHeight` and the pixel buffer are
unchanged; when it returns `true` the canvas has the requested width and
height and a pixel buffer of `4 * newWidth * newHeight` bytes. -/
theorem resize_validates (c : Canvas) (newWidth newHeight : Int) :
    (∀ ok c', resizeCanvasJS c [newWidth, newHeight] = .returned ok c' →
      (ok = false ↔
        (newWidth < 64 ∨ newWidth > 2048 ∨ newHeight < 64 ∨ newHeight > 2048))) ∧
    ((newWidth < 64 ∨ newWidth > 2048 ∨ newHeight < 64 ∨ newHeight > 2048) →
      resizeCanvasJS c [newWidth, newHeight] = .returned false c) ∧
    (¬ (newWidth < 64 ∨ newWidth > 2048 ∨ newHeight < 64 ∨ newHeight > 2048) →
      ∃ c', resizeCanvasJS c [newWidth, newHeight] = .returned true c' ∧
        (c'.canvasWidth : Int) = newWidth ∧ (c'.canvasHeight : Int) = newHeight ∧
        (c'.pix.length : Int) = 4 * newWidth * newHeight) := by
  have hbad : (newWidth < 64 ∨ newWidth > 2048 ∨ newHeight < 64 ∨ newHeight > 2048) →
      resizeCanvasJS c [newWidth, newHeight] = .returned false c := by
    intro h
    simp only [resizeCanvasJS, if_pos h]
  have hgood : ¬ (newWidth < 64 ∨ newWidth > 2048 ∨ newHeight < 64 ∨ newHeight > 2048) →
      ∃ c', resizeCanvasJS c [newWidth, newHeight] = .returned true c' ∧
        (c'.canvasWidth : Int) = newWidth ∧ (c'.canvasHeight : Int) = newHeight ∧
        (c'.pix.length : Int) = 4 * newWidth * newHeight := by
    intro h
    simp only [resizeCanvasJS, if_neg h]
    obtain ⟨pix, hloop, hlen⟩ := copy_loop_length c.pix c.canvasWidth newWidth.toNat
      newHeight.toNat
      (if Int.tdiv ((newWidth.toNat : Int) - c.canvasWidth) 2 < 0 then 0
        else Int.tdiv ((newWidth.toNat : Int) - c.canvasWidth) 2)
      (if Int.tdiv ((newHeight.toNat : Int) - c.canvasHeight) 2 < 0 then 0
        else Int.tdiv ((newHeight.toNat : Int) - c.canvasHeight) 2)
      (Nat.min c.canvasHeight newHeight.toNat) (Nat.min c.canvasWidth newWidth.toNat)
    rw [hloop]
    have hw : (newWidth.toNat : Int) = newWidth := Int.toNat_of_nonneg (by omega)
    have hh : (newHeight.toNat : Int) = newHeight := Int.toNat_of_nonneg (by omega)
    refine ⟨_, rfl, hw, hh, ?_⟩
    simp only [hlen]
    push_cast
    rw [hw, hh]
  refine ⟨?_, hbad, hgood⟩
  intro ok c' hres
  by_cases h : newWidth < 64 ∨ newWidth > 2048 ∨ newHeight < 64 ∨ newHeight > 2048
  · rw [hbad h] at hres
    injection hres with h1 h2
    simp [← h1, h]
  · obtain ⟨c'', hc'', -⟩ := hgood h
    rw [hc''] at hres
    injection hres with h1 h2
    simp [← h1, h]

/-- Witness for C11: the black 64x64 canvas resized to 63x64 (rejected)
and to 66x64 (accepted). -/
theorem resize_validates_witness :
    resizeCanvasJS blackCanvas [63, 64] = .returned false blackCanvas ∧
    ∃ c', resizeCanvasJS blackCanvas [66, 64] = .returned true c' ∧
      (c'.canvasWidth : Int) = 66 ∧ (c'.canvasHeight : Int) = 64 ∧
      (c'.pix.length : Int) = 4 * 66 * 64 :=
  ⟨(resize_validates blackCanvas 63 64).2.1 (by decide),
    (resize_validates blackCanvas 66 64).2.2 (by decide)⟩

theorem loadImageData_false_pix (fl : Flate) (c : Canvas) (data : List Nat) (pix : List Nat)
    (h : loadImageData fl c data = .returned false pix) : pix = c.pix := by
  unfold loadImageData at h
  simp only at h
  repeat' split at h
  all_goals first
    | (injection h with h1 h2; exact h2.symm)
    | (injection h with h1 h2; exact absurd h1 (by decide))
    | exact absurd h (by simp)

theorem tryLoadWithPassword_false_pix (fl : Flate) (cr : CryptoLib) (b64 : Base64Lib)
    (c : Canvas) (img : Option String) (args : List String) (pix : List Nat)
    (h : tryLoadWithPassword fl cr b64 c img args = .returned false pix) : pix = c.pix := by
  unfold tryLoadWithPassword at h
  repeat' split at h
  all_goals
    cases h <;> first
      | rfl
      | exact loadImageData_false_pix fl c _ _ (by assumption)

theorem tryLoadWithPassword_decrypt_error (fl : Flate) (cr : CryptoLib) (b64 : Base64Lib)
    (c : Canvas) (text password : String) (rest : List String) (decoded : List Nat)
    (e : String) (hdec : decodeString b64 text = some decoded)
    (herr : decrypt cr (decoded.drop 4) password = .error e) :
    tryLoadWithPassword fl cr b64 c (some text) (password :: rest) = .returned false c.pix := by
  simp only [tryLoadWithPassword, hdec, herr]
  split_ifs <;> rfl

/-- C12. Failed loads are atomic: whenever `loadImageData` returns `false`
the pixel buffer is what it was before the call; the same holds of
`tryLoadWithPassword`, which in particular returns `false` with the buffer
untouched whenever `decrypt` reports an error on the decoded payload. -/
theorem failed_load_atomic (fl : Flate) (cr : CryptoLib) (b64 : Base64Lib) (c : Canvas)
    (data : List Nat) (img : Option String) (args : List String) :
    (∀ pix, loadImageData fl c data = .returned false pix → pix = c.pix) ∧
    (∀ pix, tryLoadWithPassword fl cr b64 c img args = .returned false pix → pix = c.pix) ∧
    (∀ text password rest decoded e, img = some text → args = password :: rest →
      decodeString b64 text = some decoded →
      decrypt cr (decoded.drop 4) password = .error e →
      tryLoadWithPassword fl cr b64 c img args = .returned false c.pix) := by
  refine ⟨fun pix h => loadImageData_false_pix fl c data pix h,
    fun pix h => tryLoadWithPassword_false_pix fl cr b64 c img args pix h, ?_⟩
  intro text password rest decoded e himg hargs hdec herr
  subst himg hargs
  exact tryLoadWithPassword_decrypt_error fl cr b64 c text password rest decoded e hdec herr

/-- Witness for C12: a sealed payload too short to hold a nonce, on the
black 64x64 canvas, and a container cut inside its header. -/
theorem failed_load_atomic_witness :
    tryLoadWithPassword storedFlate demoCrypto demoBase64 blackCanvas (some "ENC:abc")
        ["secret"] = .returned false blackCanvas.pix ∧
      (∀ pix, loadImageData storedFlate blackCanvas [0, 0, 0] = .returned false pix →
        pix = blackCanvas.pix) :=
  ⟨(failed_load_atomic storedFlate demoCrypto demoBase64 blackCanvas [0, 0, 0]
      (some "ENC:abc") ["secret"]).2.2 "ENC:abc" "secret" [] [69, 78, 67, 58, 97, 98, 99]
      "invalid ciphertext" rfl rfl (by decide) (by rfl),
    (failed_load_atomic storedFlate demoCrypto demoBase64 blackCanvas [0, 0, 0]
      (some "ENC:abc") ["secret"]).1⟩

end Whiteboard
